import Mathlib

/-!
Verification of the capital-budgeting model builder and alternative-solution
enumerator of `src/capital_budgeting_extended.py` (`build_solve` and
`enumerate_k_best`).

Conventions of the shallow embedding:

* Python floats are modelled as rationals; all arithmetic is exact.
* The pandas project frame is a `Dataset`: a list of rows plus flags recording
  which optional columns are present.  Dictionary lookups built with
  `set_index('proj_id')[col].to_dict()` keep the last occurrence of a
  duplicated key, so `lookupRow` searches the reversed row list; `.loc`
  lookups require unique ids (the dataset invariant), under which the two
  coincide.
* The MILP solver is an external capability.  `build_solve` interacts with it
  only through the model it builds (variables, linear constraints, objective,
  pool parameters) and through the attribute reads listed in `SolveResult`.
  An `Oracle` maps each built model to such a result, and `ConformsAt` states
  the solver contract from the specification: returned assignments are binary
  and satisfy the model constraints, reported objective values match the
  assignments, and the incumbent-value read (`var.X` / `model.ObjVal`) fails
  exactly when no incumbent exists.  Reading the value of an alternative slot
  `s` (setting `SolutionNumber` and reading `X`, or reading `Xn`) returns the
  slot-`s` assignment when the read succeeds; the flags `slotXOk` / `xnOk`
  say whether those reads succeed.
* The bulk read `m.getAttr(GRB.Attr.PoolObjVal, m.getVars())` requests a
  model-level attribute from variables and always raises in gurobipy, so the
  embedding proceeds directly to the per-slot loop that the code runs when the
  bulk read fails; a per-slot `PoolObjVal` read is `slotObjRead`, with a
  failed read falling back to `ObjVal` exactly as the code does.
* Gurobi names the binary variables `x[<proj_id>]` (`addVars(..., name='x')`);
  `varName` reproduces this and `parseVarName` reproduces the id-recovery
  performed on such names by the pool extraction loop.
* A raised Python exception is `Except.error`; `Err.configRegion` is the
  `ValueError` for a regional quota without a region column, `Err.attrRead`
  the attribute error raised when reading solution values with no incumbent.
* `enumerate_k_best` calls `build_solve` with `pool_solutions=0`, for which
  the fallback block of `build_solve` is dead code; to break the mutual
  recursion the embedding lets the enumeration rounds call `buildSolveCore`
  (everything up to the fallback block) and proves
  `build_solve_pool_zero` : with `pool_solutions = 0` the two agree.
* Constraint names (`name=...`) are diagnostics only and are omitted.
-/

namespace CapBudget

instance {ε α : Type} [DecidableEq ε] [DecidableEq α] : DecidableEq (Except ε α) := fun x y =>
  match x, y with
  | .error e, .error e' =>
    if h : e = e' then .isTrue (by rw [h]) else .isFalse (by intro hc; cases hc; exact h rfl)
  | .ok v, .ok v' =>
    if h : v = v' then .isTrue (by rw [h]) else .isFalse (by intro hc; cases hc; exact h rfl)
  | .error _, .ok _ => .isFalse (by intro hc; cases hc)
  | .ok _, .error _ => .isFalse (by intro hc; cases hc)

/-- One row of the project table.  `res` gives this row's numeric value in a
named resource column. -/
structure Row where
  proj_id : String
  cost : ℚ
  benefit : ℚ
  social_score : ℚ
  region : String
  res : String → ℚ

/-- The project data frame: rows plus which optional columns are present.
`resCols` lists the data-frame columns usable as resource consumptions. -/
structure Dataset where
  rows : List Row
  hasSocial : Bool
  hasRegion : Bool
  resCols : List String

/-- `df['proj_id'].tolist()`. -/
def projectIds (ds : Dataset) : List String := ds.rows.map (·.proj_id)

/-- Keyed row lookup; `to_dict` keeps the last duplicate, hence the reverse. -/
def lookupRow (ds : Dataset) (p : String) : Option Row :=
  ds.rows.reverse.find? (fun r => decide (r.proj_id = p))

def costOf (ds : Dataset) (p : String) : ℚ := ((lookupRow ds p).map (·.cost)).getD 0

def benefitOf (ds : Dataset) (p : String) : ℚ := ((lookupRow ds p).map (·.benefit)).getD 0

def socialOf (ds : Dataset) (p : String) : ℚ := ((lookupRow ds p).map (·.social_score)).getD 0

/-- `region_map.get(p, '')`. -/
def regionOf (ds : Dataset) (p : String) : String := ((lookupRow ds p).map (·.region)).getD ""

/-- `df.set_index('proj_id').loc[p, rname]`. -/
def resOf (ds : Dataset) (p : String) (c : String) : ℚ :=
  ((lookupRow ds p).map (fun r => r.res c)).getD 0

def bvals (ds : Dataset) : List ℚ := ds.rows.map (·.benefit)

def svals (ds : Dataset) : List ℚ := ds.rows.map (·.social_score)

def qMin : List ℚ → ℚ
  | [] => 0
  | h :: t => t.foldl min h

def qMax : List ℚ → ℚ
  | [] => 0
  | h :: t => t.foldl max h

/-- The `1e-9` guard used in the min-max normalisation. -/
def epsNorm : ℚ := 1 / 1000000000

/-- `avg_b = b_vals.mean() if len(b_vals)>0 else 1.0`. -/
def avgBenefit (ds : Dataset) : ℚ :=
  if bvals ds = [] then 1 else (bvals ds).sum / ((bvals ds).length : ℚ)

/-- The objective coefficient per project: the raw benefit when no
`social_score` column exists, otherwise the alpha-blend of the min-max
normalised benefit and social score, rescaled by the mean raw benefit. -/
def benefit_used (ds : Dataset) (alpha : ℚ) : String → ℚ :=
  if ds.hasSocial then fun p =>
    let bn := (benefitOf ds p - qMin (bvals ds)) / (qMax (bvals ds) - qMin (bvals ds) + epsNorm)
    let sn := (socialOf ds p - qMin (svals ds)) / (qMax (svals ds) - qMin (svals ds) + epsNorm)
    (alpha * bn + (1 - alpha) * sn) * avgBenefit ds
  else fun p => benefitOf ds p

inductive Rel
  | le
  | ge
deriving DecidableEq, Repr

/-- A linear constraint: weighted sum of variables compared with a bound. -/
structure LinCon where
  terms : List (String × ℚ)
  rel : Rel
  rhs : ℚ
deriving DecidableEq, Repr

def conLhs (f : String → ℚ) (c : LinCon) : ℚ := (c.terms.map (fun t => t.2 * f t.1)).sum

def satCon (f : String → ℚ) (c : LinCon) : Prop :=
  match c.rel with
  | .le => conLhs f c ≤ c.rhs
  | .ge => c.rhs ≤ conLhs f c

instance (f : String → ℚ) (c : LinCon) : Decidable (satCon f c) :=
  match c with
  | ⟨t, .le, b⟩ => inferInstanceAs (Decidable (conLhs f ⟨t, .le, b⟩ ≤ b))
  | ⟨t, .ge, b⟩ => inferInstanceAs (Decidable (b ≤ conLhs f ⟨t, .ge, b⟩))

def satList (f : String → ℚ) (cs : List LinCon) : Prop := ∀ c ∈ cs, satCon f c

instance (f : String → ℚ) (cs : List LinCon) : Decidable (satList f cs) :=
  List.decidableBAll _ cs

def binaryOn (vs : List String) (f : String → ℚ) : Prop := ∀ v ∈ vs, f v = 0 ∨ f v = 1

instance (vs : List String) (f : String → ℚ) : Decidable (binaryOn vs f) :=
  List.decidableBAll _ vs

/-- The built binary program, including the pool parameters configured on it. -/
structure Model where
  vars : List String
  objCoeff : String → ℚ
  constrs : List LinCon
  poolSearchMode : ℕ
  poolSolutionsParam : ℕ
  poolGapParam : Option ℚ
  timeLimitParam : Option ℚ

def objOf (M : Model) (f : String → ℚ) : ℚ := (M.vars.map (fun v => M.objCoeff v * f v)).sum

def feasible (M : Model) (f : String → ℚ) : Prop := binaryOn M.vars f ∧ satList f M.constrs

/-- The keyword arguments of `build_solve` (defaults as in the source;
`None` collections are the empty list, matching Python truthiness). -/
structure Args where
  budget : ℚ
  resource_caps : List (String × ℚ) := []
  groups_exclusive : List (List String) := []
  dependencies : List (String × String) := []
  region_min_max : List (String × Option ℚ × Option ℚ) := []
  K : Option ℚ := none
  time_limit : Option ℚ := none
  pool_solutions : ℕ := 0
  pool_gap : Option ℚ := none
  multi_crit_alpha : ℚ := 1
  exclude_sets : List (List String) := []

def budgetCon (ds : Dataset) (a : Args) : LinCon :=
  ⟨(projectIds ds).map (fun p => (p, costOf ds p)), .le, a.budget⟩

def cardCons (ds : Dataset) (a : Args) : List LinCon :=
  match a.K with
  | some k => [⟨(projectIds ds).map (fun p => (p, 1)), .le, k⟩]
  | none => []

def exclCons (ds : Dataset) (a : Args) : List LinCon :=
  a.groups_exclusive.filterMap (fun g =>
    let members := g.filter (fun p => decide (p ∈ projectIds ds))
    if members = [] then none else some ⟨members.map (fun p => (p, 1)), .le, 1⟩)

def depCons (ds : Dataset) (a : Args) : List LinCon :=
  a.dependencies.filterMap (fun ij =>
    if ij.1 ∈ projectIds ds ∧ ij.2 ∈ projectIds ds then
      some ⟨[(ij.2, 1), (ij.1, -1)], .le, 0⟩
    else none)

def resCons (ds : Dataset) (a : Args) : List LinCon :=
  a.resource_caps.filterMap (fun rc =>
    if rc.1 ∈ ds.resCols then
      some ⟨(projectIds ds).map (fun p => (p, resOf ds p rc.1)), .le, rc.2⟩
    else none)

def excludeCons (ds : Dataset) (a : Args) : List LinCon :=
  a.exclude_sets.filterMap (fun s =>
    let members := s.filter (fun p => decide (p ∈ projectIds ds))
    if members = [] then none
    else some ⟨members.map (fun p => (p, 1)), .le, (members.length : ℚ) - 1⟩)

def regionCons (ds : Dataset) (a : Args) : List LinCon :=
  (a.region_min_max.map (fun q =>
    let members := (projectIds ds).filter (fun p => decide (regionOf ds p = q.1))
    if members = [] then []
    else
      (match q.2.2 with
       | some mx => [(⟨members.map (fun p => (p, 1)), .le, mx⟩ : LinCon)]
       | none => []) ++
      (match q.2.1 with
       | some mn =>
         if 0 < mn then [(⟨members.map (fun p => (p, 1)), .ge, mn⟩ : LinCon)] else []
       | none => []))).flatten

inductive Err
  | configRegion
  | attrRead
deriving DecidableEq, Repr

/-- Model construction: everything `build_solve` does before `m.optimize()`.
The `ValueError` for a regional quota without a region column is raised here,
before the solver is ever invoked. -/
def buildModelE (ds : Dataset) (a : Args) : Except Err Model :=
  if a.region_min_max ≠ [] ∧ ds.hasRegion = false then .error .configRegion
  else .ok
    { vars := projectIds ds
      objCoeff := benefit_used ds a.multi_crit_alpha
      constrs := [budgetCon ds a] ++ cardCons ds a ++ exclCons ds a ++ depCons ds a
        ++ resCons ds a ++ excludeCons ds a ++ regionCons ds a
      poolSearchMode := if 0 < a.pool_solutions then 2 else 0
      poolSolutionsParam := if 0 < a.pool_solutions then a.pool_solutions else 0
      poolGapParam := if 0 < a.pool_solutions then some (a.pool_gap.getD 1) else a.pool_gap
      timeLimitParam := a.time_limit }

inductive Status
  | optimal
  | suboptimal
  | timeLimit
  | infeasible
  | unbounded
  | interrupted
deriving DecidableEq, Repr

/-- `m.Status in {GRB.OPTIMAL, GRB.SUBOPTIMAL, GRB.TIME_LIMIT}`. -/
def Status.usable : Status → Bool
  | .optimal => true
  | .suboptimal => true
  | .timeLimit => true
  | _ => false

/-- Everything `build_solve` reads back from the solver after `optimize()`. -/
structure SolveResult where
  status : Status
  solCount : ℕ
  objVal : ℚ
  xRead : Option (String → ℚ)
  slotAssign : ℕ → String → ℚ
  slotXOk : ℕ → Bool
  xnOk : ℕ → Bool
  slotObjRead : ℕ → Option ℚ

def Oracle := Model → SolveResult

/-- Gurobi's name for the binary variable of project `p`. -/
def varName (p : String) : String := "x[" ++ p ++ "]"

def splitOnChar (c : Char) : List Char → List (List Char)
  | [] => [[]]
  | x :: xs =>
    let r := splitOnChar c xs
    if x = c then [] :: r
    else
      match r with
      | h :: t => (x :: h) :: t
      | [] => [[x]]

/-- `if 'P' in vname: 'P' + vname.split('P')[-1].replace(']','').replace('_','')`. -/
def parseVarName (vname : String) : Option String :=
  let cs := vname.toList
  if cs.contains 'P' then
    some (String.mk
      ('P' :: ((splitOnChar 'P' cs).getLastD []).filter
        (fun ch => decide (ch ≠ ']') && decide (ch ≠ '_'))))
  else none

/-- A solution record (`sol_no`, `selected`, `obj`, and the `_iteration` /
`_excluded` keys attached by `enumerate_k_best`). -/
structure Sol where
  sol_no : ℕ
  selected : List String
  obj : ℚ
  iteration : Option ℕ
  excluded : List (List String)
deriving DecidableEq, Repr

/-- `var.X` (0 if even that read fails, as in the per-variable fallback). -/
def primaryVal (r : SolveResult) (p : String) : ℚ :=
  match r.xRead with
  | some f => f p
  | none => 0

/-- Per-variable fallback value for slot `s`: `Xn` if readable, else `X`. -/
def slotFallbackVal (r : SolveResult) (s : ℕ) (p : String) : ℚ :=
  if r.xnOk s then r.slotAssign s p else primaryVal r p

/-- The selected-id list extracted for pool slot `s`: the name-parsing loop
when the bulk `X` read works, the per-variable `Xn`/`X` loop otherwise. -/
def slotSelected (M : Model) (r : SolveResult) (s : ℕ) : List String :=
  if r.slotXOk s then
    M.vars.filterMap (fun p =>
      if (1 : ℚ)/2 < r.slotAssign s p then parseVarName (varName p) else none)
  else
    M.vars.filter (fun p => decide ((1 : ℚ)/2 < slotFallbackVal r s p))

/-- The pooled extraction loop over slots `0 .. min(SolCount, pool)-1`. -/
def extractPooled (M : Model) (r : SolveResult) (pool : ℕ) : List Sol :=
  (List.range (min r.solCount pool)).map (fun s =>
    { sol_no := s
      selected := slotSelected M r s
      obj := (r.slotObjRead s).getD r.objVal
      iteration := none
      excluded := [] })

/-- `[p for p in projects if x[p].X > 0.5]`. -/
def bestSelected (M : Model) (f : String → ℚ) : List String :=
  M.vars.filter (fun p => decide ((1 : ℚ)/2 < f p))

def insortStr (s : String) : List String → List String
  | [] => [s]
  | h :: t => if s ≤ h then s :: h :: t else h :: insortStr s t

def sortStrs (l : List String) : List String := l.foldr insortStr []

/-- `tuple(sorted(sol.get('selected', [])))`. -/
def sortKey (s : Sol) : List String := sortStrs s.selected

/-- The dedup loop with its `seen` set. -/
def dedupGo (seen : List (List String)) : List Sol → List Sol
  | [] => []
  | s :: rest =>
    if sortKey s ∈ seen then dedupGo seen rest
    else s :: dedupGo (sortKey s :: seen) rest

def dedupSols (l : List Sol) : List Sol := dedupGo [] l

/-- Result of `build_solve`: the model, the deduplicated solutions, and the
pool metadata (`gurobi_solcount`, `requested_pool`). -/
structure BSRes where
  model : Model
  solutions : List Sol
  solCountMeta : ℕ
  requestedPool : ℕ

/-- The solution-collection block of `build_solve`: pooled extraction when the
pool was requested and an incumbent exists, the single-best read otherwise
(which raises when there is no incumbent to read), nothing on a non-usable
terminal status. -/
def extractStep (M : Model) (r : SolveResult) (pool : ℕ) : Except Err (List Sol) :=
  if r.status.usable then
    if 0 < pool ∧ 0 < r.solCount then .ok (extractPooled M r pool)
    else
      match r.xRead with
      | none => .error .attrRead
      | some f =>
        .ok [{ sol_no := 0, selected := bestSelected M f, obj := r.objVal,
               iteration := none, excluded := [] }]
  else .ok []

/-- `build_solve` up to (and including) deduplication and metadata — i.e.
everything except the fallback enumeration block. -/
def buildSolveCore (oracle : Oracle) (ds : Dataset) (a : Args) : Except Err BSRes :=
  match buildModelE ds a with
  | .error e => .error e
  | .ok M =>
    match extractStep M (oracle M) a.pool_solutions with
    | .error e => .error e
    | .ok sols =>
      .ok { model := M, solutions := dedupSols sols,
            solCountMeta := (oracle M).solCount, requestedPool := a.pool_solutions }

/-- The arguments `enumerate_k_best` passes to each round's solve: same data
rules, `pool_solutions=0`, per-round time limit, accumulated exclusions. -/
def roundArgs (a : Args) (perSolve : Option ℚ) (exc : List (List String)) : Args :=
  { budget := a.budget
    resource_caps := a.resource_caps
    groups_exclusive := a.groups_exclusive
    dependencies := a.dependencies
    region_min_max := a.region_min_max
    K := a.K
    time_limit := perSolve
    pool_solutions := 0
    pool_gap := none
    multi_crit_alpha := a.multi_crit_alpha
    exclude_sets := exc }

/-- The `for i in range(k)` loop of `enumerate_k_best`: `fuel` counts the
remaining rounds, `i` is the current round index. -/
def enumGo (oracle : Oracle) (ds : Dataset) (a : Args) (perSolve : Option ℚ) :
    ℕ → ℕ → List Sol → List (List String) → Except Err (List Sol)
  | 0, _, found, _ => .ok found
  | fuel + 1, i, found, exc =>
    match buildSolveCore oracle ds (roundArgs a perSolve exc) with
    | .error e => .error e
    | .ok res =>
      match res.solutions with
      | [] => .ok found
      | best :: _ =>
        let entry : Sol := { best with sol_no := i, iteration := some i, excluded := exc }
        if best.selected = [] then .ok (found ++ [entry])
        else enumGo oracle ds a perSolve fuel (i + 1) (found ++ [entry]) (exc ++ [best.selected])

/-- `enumerate_k_best(df, budget, ..., k, time_per_solve, multi_crit_alpha)`.
Only the rule fields of `a` are read; each round solves with
`pool_solutions=0` and the accumulated exclusion sets. -/
def enumerate_k_best (oracle : Oracle) (ds : Dataset) (a : Args) (k : ℕ)
    (time_per_solve : Option ℚ) : Except Err (List Sol) :=
  let perSolve := match time_per_solve with
    | some t => some t
    | none => a.time_limit
  enumGo oracle ds a perSolve k 0 [] []

/-- `time_per_solve=time_limit if time_limit else 30` of the fallback call. -/
def fallbackTPS (a : Args) : Option ℚ :=
  match a.time_limit with
  | some t => if t = 0 then some 30 else some t
  | none => some 30

/-- Full `build_solve`: core solve plus the fallback enumeration block. -/
def build_solve (oracle : Oracle) (ds : Dataset) (a : Args) : Except Err BSRes :=
  match buildSolveCore oracle ds a with
  | .error e => .error e
  | .ok res =>
    if 0 < a.pool_solutions ∧ res.solutions.length < a.pool_solutions then
      match enumerate_k_best oracle ds a a.pool_solutions (fallbackTPS a) with
      | .error e => .error e
      | .ok enumSols =>
        if enumSols = [] then .ok res
        else .ok { res with solutions := enumSols.take a.pool_solutions }
    else .ok res

def solsOf (x : Except Err BSRes) : Except Err (List Sol) := x.map (·.solutions)

/-- The solver contract (spec §6) for one model/result pair. -/
structure ConformsAt (M : Model) (r : SolveResult) : Prop where
  opt_has : (r.status = .optimal ∨ r.status = .suboptimal) → 0 < r.solCount
  x_of_sol : 0 < r.solCount → r.xRead.isSome
  x_of_none : r.solCount = 0 → r.xRead = none
  x_good : ∀ f, r.xRead = some f → feasible M f ∧ r.objVal = objOf M f
  slot_good : ∀ s, s < r.solCount → feasible M (r.slotAssign s)
  slotObj_good : ∀ s v, s < r.solCount → r.slotObjRead s = some v → v = objOf M (r.slotAssign s)

def ConformsAll (oracle : Oracle) : Prop := ∀ M, ConformsAt M (oracle M)

/-- Result used for any terminal state with no incumbent. -/
def noSolRes (st : Status) : SolveResult :=
  { status := st, solCount := 0, objVal := 0, xRead := none,
    slotAssign := fun _ _ => 0, slotXOk := fun _ => false, xnOk := fun _ => false,
    slotObjRead := fun _ => none }

/-- A deterministic solver that reports `gs` as its solution pool whenever all
of them are feasible for the model, and reports infeasibility otherwise. -/
def listOracle (gs : List (String → ℚ)) : Oracle := fun M =>
  match gs with
  | [] => noSolRes .infeasible
  | g0 :: rest =>
    if ∀ g ∈ g0 :: rest, satList g M.constrs then
      { status := .optimal
        solCount := (g0 :: rest).length
        objVal := objOf M g0
        xRead := some g0
        slotAssign := fun s => (g0 :: rest).getD s g0
        slotXOk := fun _ => true
        xnOk := fun _ => true
        slotObjRead := fun s => some (objOf M ((g0 :: rest).getD s g0)) }
    else noSolRes .infeasible

def zeroAsg : String → ℚ := fun _ => 0

def oneAsg : String → ℚ := fun _ => 1

def zeroOracle : Oracle := listOracle [zeroAsg]

/-- A solver that always reports terminal state `st` with no incumbent. -/
def statusOracle (st : Status) : Oracle := fun _ => noSolRes st

lemma noSolRes_conformsAt (M : Model) (st : Status)
    (h1 : st ≠ .optimal) (h2 : st ≠ .suboptimal) : ConformsAt M (noSolRes st) := by
  constructor
  · rintro (h | h) <;> simp [noSolRes] at h <;> [exact absurd h h1; exact absurd h h2]
  · intro h; simp [noSolRes] at h
  · intro _; rfl
  · intro f hf; simp [noSolRes] at hf
  · intro s hs; simp [noSolRes] at hs
  · intro s v hs _; simp [noSolRes] at hs

lemma statusOracle_conformsAll (st : Status)
    (h1 : st ≠ .optimal) (h2 : st ≠ .suboptimal) : ConformsAll (statusOracle st) :=
  fun M => noSolRes_conformsAt M st h1 h2

lemma getD_mem_cons {α : Type} (g0 : α) (rest : List α) (s : ℕ) :
    (g0 :: rest).getD s g0 ∈ g0 :: rest := by
  rcases Nat.lt_or_ge s (g0 :: rest).length with h | h
  · rw [List.getD_eq_getElem _ _ h]; exact List.getElem_mem h
  · rw [List.getD_eq_default _ _ h]; exact List.mem_cons_self _ _

lemma listOracle_conformsAt (gs : List (String → ℚ))
    (hb : ∀ g ∈ gs, ∀ v, g v = 0 ∨ g v = 1) (M : Model) :
    ConformsAt M (listOracle gs M) := by
  match gs with
  | [] => exact noSolRes_conformsAt M .infeasible (by simp) (by simp)
  | g0 :: rest =>
    show ConformsAt M (if ∀ g ∈ g0 :: rest, satList g M.constrs then _ else _)
    by_cases h : ∀ g ∈ g0 :: rest, satList g M.constrs
    · rw [if_pos h]
      have hfeas : ∀ g ∈ g0 :: rest, feasible M g := by
        intro g hg
        exact ⟨fun v _ => hb g hg v, h g hg⟩
      constructor
      · intro _; exact Nat.succ_pos _
      · intro _; rfl
      · intro hc; simp at hc
      · intro f hf
        injection hf with h'
        subst h'
        exact ⟨hfeas g0 (List.mem_cons_self _ _), rfl⟩
      · intro s _
        exact hfeas _ (getD_mem_cons g0 rest s)
      · intro s v _ hv
        injection hv with h'; exact h'.symm
    · rw [if_neg h]
      exact noSolRes_conformsAt M .infeasible (by simp) (by simp)

lemma listOracle_conformsAll (gs : List (String → ℚ))
    (hb : ∀ g ∈ gs, ∀ v, g v = 0 ∨ g v = 1) : ConformsAll (listOracle gs) :=
  fun M => listOracle_conformsAt gs hb M

lemma zeroOracle_conformsAll : ConformsAll zeroOracle := by
  apply listOracle_conformsAll
  intro g hg v
  simp only [List.mem_singleton] at hg
  subst hg
  exact Or.inl rfl

lemma onesOracle_conformsAll : ConformsAll (listOracle [oneAsg]) := by
  apply listOracle_conformsAll
  intro g hg v
  simp only [List.mem_singleton] at hg
  subst hg
  exact Or.inr rfl

lemma buildModelE_ok_vars {ds : Dataset} {a : Args} {M : Model}
    (h : buildModelE ds a = .ok M) : M.vars = projectIds ds := by
  unfold buildModelE at h
  split at h
  · cases h
  · injection h with h'; rw [← h']

lemma buildModelE_ok_obj {ds : Dataset} {a : Args} {M : Model}
    (h : buildModelE ds a = .ok M) : M.objCoeff = benefit_used ds a.multi_crit_alpha := by
  unfold buildModelE at h
  split at h
  · cases h
  · injection h with h'; rw [← h']

lemma buildModelE_ok_constrs {ds : Dataset} {a : Args} {M : Model}
    (h : buildModelE ds a = .ok M) :
    M.constrs = [budgetCon ds a] ++ cardCons ds a ++ exclCons ds a ++ depCons ds a
      ++ resCons ds a ++ excludeCons ds a ++ regionCons ds a := by
  unfold buildModelE at h
  split at h
  · cases h
  · injection h with h'; rw [← h']

lemma satCon_le (f : String → ℚ) (ts : List (String × ℚ)) (b : ℚ) :
    satCon f ⟨ts, .le, b⟩ ↔ conLhs f ⟨ts, .le, b⟩ ≤ b := Iff.rfl

lemma satCon_ge (f : String → ℚ) (ts : List (String × ℚ)) (b : ℚ) :
    satCon f ⟨ts, .ge, b⟩ ↔ b ≤ conLhs f ⟨ts, .ge, b⟩ := Iff.rfl

lemma half_lt_iff {x : ℚ} (hx : x = 0 ∨ x = 1) : (1 : ℚ)/2 < x ↔ x = 1 := by
  rcases hx with h | h <;> subst h <;> norm_num

lemma sum_mul_indicator (f w : String → ℚ) (l : List String)
    (hb : ∀ p ∈ l, f p = 0 ∨ f p = 1) :
    (l.map (fun p => w p * f p)).sum
      = ((l.filter (fun p => decide ((1 : ℚ)/2 < f p))).map w).sum := by
  induction l with
  | nil => rfl
  | cons p t ih =>
    have hp := hb p (List.mem_cons_self _ _)
    have ht : ∀ q ∈ t, f q = 0 ∨ f q = 1 := fun q hq => hb q (List.mem_cons_of_mem _ hq)
    rcases hp with h | h
    · have hlt : ¬((1 : ℚ)/2 < f p) := by rw [h]; norm_num
      simp only [List.map_cons, List.sum_cons, List.filter_cons]
      rw [if_neg (by simpa using hlt), h, mul_zero, zero_add]
      exact ih ht
    · have hlt : (1 : ℚ)/2 < f p := by rw [h]; norm_num
      simp only [List.map_cons, List.sum_cons, List.filter_cons]
      rw [if_pos (by simpa using hlt), List.map_cons, List.sum_cons, h, mul_one, ih ht]

lemma sum_map_one (l : List String) : (l.map (fun _ => (1 : ℚ))).sum = l.length := by
  induction l with
  | nil => rfl
  | cons p t ih =>
    simp only [List.map_cons, List.sum_cons, ih, List.length_cons, Nat.cast_succ]
    ring

lemma sum_weighted_filter (f w : String → ℚ) (l : List String)
    (hb : ∀ p ∈ l, f p = 0 ∨ f p = 1) :
    ((l.map (fun p => (p, w p))).map (fun t => t.2 * f t.1)).sum
      = ((l.filter (fun p => decide ((1 : ℚ)/2 < f p))).map w).sum := by
  rw [List.map_map]
  exact sum_mul_indicator f w l hb

lemma sum_ones_filter (f : String → ℚ) (l : List String)
    (hb : ∀ p ∈ l, f p = 0 ∨ f p = 1) :
    ((l.map (fun p => (p, (1 : ℚ)))).map (fun t => t.2 * f t.1)).sum
      = ((l.filter (fun p => decide ((1 : ℚ)/2 < f p))).length : ℚ) := by
  rw [sum_weighted_filter f (fun _ => 1) l hb, sum_map_one]

lemma length_eq_of_nodup_same_mem {l₁ l₂ : List String} (h₁ : l₁.Nodup) (h₂ : l₂.Nodup)
    (h : ∀ p, p ∈ l₁ ↔ p ∈ l₂) : l₁.length = l₂.length :=
  ((List.perm_ext_iff_of_nodup h₁ h₂).mpr h).length_eq

/-- The direct re-checks of the claim: all rule families hold for a selected-id
list, by direct summation / counting over it.  The regional check applies to
quotas whose region has at least one resident project (no constraint is
emitted otherwise); the exclusivity and cardinality checks count ids. -/
def GoodSel (ds : Dataset) (a : Args) (sel : List String) : Prop :=
  ((sel.map (costOf ds)).sum ≤ a.budget) ∧
  (∀ k, a.K = some k → (sel.length : ℚ) ≤ k) ∧
  (∀ g ∈ a.groups_exclusive, (sel.filter (fun p => decide (p ∈ g))).length ≤ 1) ∧
  (∀ ij ∈ a.dependencies, ij.1 ∈ projectIds ds → ij.2 ∈ projectIds ds →
    ij.2 ∈ sel → ij.1 ∈ sel) ∧
  (∀ rc ∈ a.resource_caps, rc.1 ∈ ds.resCols →
    (sel.map (fun p => resOf ds p rc.1)).sum ≤ rc.2) ∧
  (∀ q ∈ a.region_min_max, (∃ p ∈ projectIds ds, regionOf ds p = q.1) →
    (∀ mx, q.2.2 = some mx →
      ((sel.filter (fun p => decide (regionOf ds p = q.1))).length : ℚ) ≤ mx) ∧
    (∀ mn, q.2.1 = some mn → 0 < mn →
      mn ≤ ((sel.filter (fun p => decide (regionOf ds p = q.1))).length : ℚ)))
lemma regionCons_block_mem (ds : Dataset) (a : Args) (q : String × Option ℚ × Option ℚ)
    (hq : q ∈ a.region_min_max)
    (hne : (projectIds ds).filter (fun p => decide (regionOf ds p = q.1)) ≠ []) (c : LinCon)
    (hcmem : c ∈
      (match q.2.2 with
       | some mx =>
         [(⟨((projectIds ds).filter (fun p => decide (regionOf ds p = q.1))).map
             (fun p => (p, 1)), .le, mx⟩ : LinCon)]
       | none => []) ++
      (match q.2.1 with
       | some mn =>
         if 0 < mn then
           [(⟨((projectIds ds).filter (fun p => decide (regionOf ds p = q.1))).map
               (fun p => (p, 1)), .ge, mn⟩ : LinCon)]
         else []
       | none => [])) :
    c ∈ regionCons ds a := by
  unfold regionCons
  apply List.mem_flatten.mpr
  refine ⟨_, List.mem_map_of_mem _ hq, ?_⟩
  show c ∈
    (if (projectIds ds).filter (fun p => decide (regionOf ds p = q.1)) = [] then ([] : List LinCon)
     else
      (match q.2.2 with
       | some mx =>
         [(⟨((projectIds ds).filter (fun p => decide (regionOf ds p = q.1))).map
             (fun p => (p, 1)), .le, mx⟩ : LinCon)]
       | none => []) ++
      (match q.2.1 with
       | some mn =>
         if 0 < mn then
           [(⟨((projectIds ds).filter (fun p => decide (regionOf ds p = q.1))).map
               (fun p => (p, 1)), .ge, mn⟩ : LinCon)]
         else []
       | none => []))
  rw [if_neg hne]
  exact hcmem

/-- Any binary assignment that satisfies the constraints of the built model
passes all the direct re-checks on its thresholded selected-id list. -/
lemma goodSel_of_feasible (ds : Dataset) (a : Args) (M : Model) (f : String → ℚ)
    (hids : (projectIds ds).Nodup)
    (hgr : ∀ g ∈ a.groups_exclusive, g.Nodup)
    (hM : buildModelE ds a = .ok M)
    (hf : feasible M f) :
    GoodSel ds a (bestSelected M f) := by
  obtain ⟨hbin, hsat⟩ := hf
  have hv := buildModelE_ok_vars hM
  have hc := buildModelE_ok_constrs hM
  rw [hv] at hbin
  have hsel : bestSelected M f
      = (projectIds ds).filter (fun p => decide ((1 : ℚ)/2 < f p)) := by
    unfold bestSelected; rw [hv]
  have hselmem : ∀ p, p ∈ bestSelected M f ↔ p ∈ projectIds ds ∧ (1 : ℚ)/2 < f p := by
    intro p
    rw [hsel]
    simp [List.mem_filter]
  have hselnd : (bestSelected M f).Nodup := by
    rw [hsel]; exact List.Nodup.filter _ hids
  refine ⟨?_, ?_, ?_, ?_, ?_, ?_⟩
  · -- budget
    have hm : budgetCon ds a ∈ M.constrs := by
      rw [hc]; simp [List.mem_append]
    have hs : (((projectIds ds).map (fun p => (p, costOf ds p))).map
        (fun t => t.2 * f t.1)).sum ≤ a.budget := hsat _ hm
    rw [sum_weighted_filter f (costOf ds) (projectIds ds) hbin] at hs
    rw [hsel]
    exact hs
  · -- cardinality
    intro k hk
    have hm : (⟨(projectIds ds).map (fun p => (p, 1)), .le, k⟩ : LinCon) ∈ M.constrs := by
      rw [hc]; simp [List.mem_append, cardCons, hk]
    have hs : (((projectIds ds).map (fun p => (p, (1 : ℚ)))).map
        (fun t => t.2 * f t.1)).sum ≤ k := hsat _ hm
    rw [sum_ones_filter f (projectIds ds) hbin] at hs
    rw [hsel]
    exact hs
  · -- exclusivity groups
    intro g hg
    by_cases hm : g.filter (fun p => decide (p ∈ projectIds ds)) = []
    · have : (bestSelected M f).filter (fun p => decide (p ∈ g)) = [] := by
        apply List.filter_eq_nil_iff.mpr
        intro p hp
        simp only [decide_eq_true_eq]
        intro hpg
        have hpP : p ∈ projectIds ds := ((hselmem p).mp hp).1
        have : p ∈ g.filter (fun p => decide (p ∈ projectIds ds)) :=
          List.mem_filter.mpr ⟨hpg, by simpa using hpP⟩
        rw [hm] at this
        exact List.not_mem_nil _ this
      rw [this]
      simp
    · have hmm : (⟨(g.filter (fun p => decide (p ∈ projectIds ds))).map (fun p => (p, 1)),
          .le, 1⟩ : LinCon) ∈ M.constrs := by
        rw [hc]
        have : (⟨(g.filter (fun p => decide (p ∈ projectIds ds))).map (fun p => (p, 1)),
            .le, 1⟩ : LinCon) ∈ exclCons ds a := by
          apply List.mem_filterMap.mpr
          exact ⟨g, hg, by rw [if_neg hm]⟩
        simp [List.mem_append, this]
      have hmb : ∀ p ∈ g.filter (fun p => decide (p ∈ projectIds ds)), f p = 0 ∨ f p = 1 := by
        intro p hp
        exact hbin p (by simpa using (List.mem_filter.mp hp).2)
      have hs : (((g.filter (fun p => decide (p ∈ projectIds ds))).map
          (fun p => (p, (1 : ℚ)))).map (fun t => t.2 * f t.1)).sum ≤ 1 := hsat _ hmm
      rw [sum_ones_filter f _ hmb] at hs
      have hcount : ((bestSelected M f).filter (fun p => decide (p ∈ g))).length
          = ((g.filter (fun p => decide (p ∈ projectIds ds))).filter
              (fun p => decide ((1 : ℚ)/2 < f p))).length := by
        apply length_eq_of_nodup_same_mem
        · exact List.Nodup.filter _ hselnd
        · exact List.Nodup.filter _ (List.Nodup.filter _ (hgr g hg))
        · intro p
          simp only [List.mem_filter, decide_eq_true_eq]
          constructor
          · rintro ⟨hp1, hp2⟩
            obtain ⟨hpP, hpf⟩ := (hselmem p).mp hp1
            exact ⟨⟨hp2, by simpa using hpP⟩, by simpa using hpf⟩
          · rintro ⟨⟨hpg, hpP⟩, hpf⟩
            refine ⟨(hselmem p).mpr ⟨by simpa using hpP, by simpa using hpf⟩, hpg⟩
      rw [hcount]
      exact_mod_cast hs
  · -- dependencies
    intro ij hij h1 h2 hsel2
    have hmm : (⟨[(ij.2, 1), (ij.1, -1)], .le, 0⟩ : LinCon) ∈ M.constrs := by
      rw [hc]
      have : (⟨[(ij.2, 1), (ij.1, -1)], .le, 0⟩ : LinCon) ∈ depCons ds a := by
        apply List.mem_filterMap.mpr
        exact ⟨ij, hij, by rw [if_pos ⟨h1, h2⟩]⟩
      simp [List.mem_append, this]
    have hs : (([(ij.2, (1 : ℚ)), (ij.1, -1)].map (fun t => t.2 * f t.1)).sum) ≤ 0 :=
      hsat _ hmm
    simp only [List.map_cons, List.map_nil, List.sum_cons, List.sum_nil] at hs
    have hf2 : f ij.2 = 1 := (half_lt_iff (hbin _ h2)).mp ((hselmem ij.2).mp hsel2).2
    have hf1 : f ij.1 = 1 := by
      rcases hbin ij.1 h1 with h | h
      · rw [hf2, h] at hs; norm_num at hs
      · exact h
    exact (hselmem ij.1).mpr ⟨h1, by rw [hf1]; norm_num⟩
  · -- resource caps
    intro rc hrc hcol
    have hmm : (⟨(projectIds ds).map (fun p => (p, resOf ds p rc.1)), .le, rc.2⟩ : LinCon)
        ∈ M.constrs := by
      rw [hc]
      have : (⟨(projectIds ds).map (fun p => (p, resOf ds p rc.1)), .le, rc.2⟩ : LinCon)
          ∈ resCons ds a := by
        apply List.mem_filterMap.mpr
        exact ⟨rc, hrc, by rw [if_pos hcol]⟩
      simp [List.mem_append, this]
    have hs : (((projectIds ds).map (fun p => (p, resOf ds p rc.1))).map
        (fun t => t.2 * f t.1)).sum ≤ rc.2 := hsat _ hmm
    rw [sum_weighted_filter f (fun p => resOf ds p rc.1) (projectIds ds) hbin] at hs
    rw [hsel]
    exact hs
  · -- regional quotas
    intro q hq hres
    have hne : (projectIds ds).filter (fun p => decide (regionOf ds p = q.1)) ≠ [] := by
      obtain ⟨p, hpP, hpr⟩ := hres
      exact List.ne_nil_of_mem (List.mem_filter.mpr ⟨hpP, by simpa using hpr⟩)
    have hmb : ∀ p ∈ (projectIds ds).filter (fun p => decide (regionOf ds p = q.1)),
        f p = 0 ∨ f p = 1 := by
      intro p hp
      exact hbin p (List.mem_filter.mp hp).1
    have hcount : ((bestSelected M f).filter (fun p => decide (regionOf ds p = q.1))).length
        = (((projectIds ds).filter (fun p => decide (regionOf ds p = q.1))).filter
            (fun p => decide ((1 : ℚ)/2 < f p))).length := by
      apply length_eq_of_nodup_same_mem
      · exact List.Nodup.filter _ hselnd
      · exact List.Nodup.filter _ (List.Nodup.filter _ hids)
      · intro p
        simp only [List.mem_filter, decide_eq_true_eq]
        constructor
        · rintro ⟨hp1, hp2⟩
          obtain ⟨hpP, hpf⟩ := (hselmem p).mp hp1
          exact ⟨⟨hpP, by simpa using hp2⟩, by simpa using hpf⟩
        · rintro ⟨⟨hpP, hpr⟩, hpf⟩
          exact ⟨(hselmem p).mpr ⟨hpP, by simpa using hpf⟩, hpr⟩
    constructor
    · intro mx hmx
      have hmm : (⟨((projectIds ds).filter (fun p => decide (regionOf ds p = q.1))).map
          (fun p => (p, 1)), .le, mx⟩ : LinCon) ∈ M.constrs := by
        rw [hc]
        have : (⟨((projectIds ds).filter (fun p => decide (regionOf ds p = q.1))).map
            (fun p => (p, 1)), .le, mx⟩ : LinCon) ∈ regionCons ds a := by
          apply regionCons_block_mem ds a q hq hne
          rw [hmx]
          exact List.mem_append_left _ (List.mem_singleton.mpr rfl)
        simp [List.mem_append, this]
      have hs : ((((projectIds ds).filter (fun p => decide (regionOf ds p = q.1))).map
          (fun p => (p, (1 : ℚ)))).map (fun t => t.2 * f t.1)).sum ≤ mx := hsat _ hmm
      rw [sum_ones_filter f _ hmb] at hs
      rw [hcount]
      exact hs
    · intro mn hmn h0
      have hmm : (⟨((projectIds ds).filter (fun p => decide (regionOf ds p = q.1))).map
          (fun p => (p, 1)), .ge, mn⟩ : LinCon) ∈ M.constrs := by
        rw [hc]
        have : (⟨((projectIds ds).filter (fun p => decide (regionOf ds p = q.1))).map
            (fun p => (p, 1)), .ge, mn⟩ : LinCon) ∈ regionCons ds a := by
          apply regionCons_block_mem ds a q hq hne
          apply List.mem_append_right
          rw [hmn]
          simp [h0]
        simp [List.mem_append, this]
      have hs : mn ≤ ((((projectIds ds).filter (fun p => decide (regionOf ds p = q.1))).map
          (fun p => (p, (1 : ℚ)))).map (fun t => t.2 * f t.1)).sum := hsat _ hmm
      rw [sum_ones_filter f _ hmb] at hs
      rw [hcount]
      exact hs

lemma filterMap_parse (f : String → ℚ) (l : List String)
    (hparse : ∀ p ∈ l, parseVarName (varName p) = some p) :
    l.filterMap (fun p => if (1 : ℚ)/2 < f p then parseVarName (varName p) else none)
      = l.filter (fun p => decide ((1 : ℚ)/2 < f p)) := by
  induction l with
  | nil => rfl
  | cons p t ih =>
    have hp := hparse p (List.mem_cons_self _ _)
    have ht : ∀ q ∈ t, parseVarName (varName q) = some q :=
      fun q hq => hparse q (List.mem_cons_of_mem _ hq)
    simp only [List.filterMap_cons, List.filter_cons]
    by_cases h : (1 : ℚ)/2 < f p
    · rw [if_pos h, hp]
      dsimp only
      rw [if_pos (decide_eq_true h), ih ht]
    · rw [if_neg h]
      dsimp only
      rw [if_neg (by simpa using h), ih ht]

lemma slotSelected_xok (M : Model) (r : SolveResult) (s : ℕ)
    (hparse : ∀ p ∈ M.vars, parseVarName (varName p) = some p)
    (hx : r.slotXOk s = true) :
    slotSelected M r s = bestSelected M (r.slotAssign s) := by
  unfold slotSelected bestSelected
  rw [if_pos hx]
  exact filterMap_parse (r.slotAssign s) M.vars hparse

lemma slotSelected_xnok (M : Model) (r : SolveResult) (s : ℕ)
    (hx : r.slotXOk s = false) (hxn : r.xnOk s = true) :
    slotSelected M r s = bestSelected M (r.slotAssign s) := by
  unfold slotSelected bestSelected
  rw [if_neg (by simp [hx])]
  apply List.filter_congr
  intro p _
  simp [slotFallbackVal, hxn]

lemma slotSelected_xfb (M : Model) (r : SolveResult) (s : ℕ) (f : String → ℚ)
    (hx : r.slotXOk s = false) (hxn : r.xnOk s = false) (hread : r.xRead = some f) :
    slotSelected M r s = bestSelected M f := by
  unfold slotSelected bestSelected
  rw [if_neg (by simp [hx])]
  apply List.filter_congr
  intro p _
  simp [slotFallbackVal, hxn, primaryVal, hread]

/-- Under the solver contract, whichever read path the pooled extraction takes
for slot `s`, the extracted id list is the 0.5-thresholding of some feasible
binary assignment (provided name parsing recovers the ids). -/
lemma slotSelected_feasible_form (M : Model) (r : SolveResult) (s : ℕ)
    (hconf : ConformsAt M r) (hs : s < r.solCount)
    (hparse : ∀ p ∈ M.vars, parseVarName (varName p) = some p) :
    ∃ f, feasible M f ∧ slotSelected M r s = bestSelected M f := by
  by_cases hx : r.slotXOk s
  · exact ⟨r.slotAssign s, hconf.slot_good s hs, slotSelected_xok M r s hparse hx⟩
  · by_cases hxn : r.xnOk s
    · exact ⟨r.slotAssign s, hconf.slot_good s hs,
        slotSelected_xnok M r s (by simpa using hx) hxn⟩
    · have hsc : 0 < r.solCount := Nat.lt_of_le_of_lt (Nat.zero_le s) hs
      obtain ⟨f, hread⟩ := Option.isSome_iff_exists.mp (hconf.x_of_sol hsc)
      exact ⟨f, (hconf.x_good f hread).1,
        slotSelected_xfb M r s f (by simpa using hx) (by simpa using hxn) hread⟩

lemma solsOf_ok_iff (x : Except Err BSRes) (sols : List Sol) :
    solsOf x = .ok sols ↔ ∃ res, x = .ok res ∧ res.solutions = sols := by
  cases x with
  | error e => simp [solsOf, Except.map]
  | ok res =>
    simp only [solsOf, Except.map, Except.ok.injEq]
    constructor
    · intro h; exact ⟨res, rfl, h⟩
    · rintro ⟨res2, h1, h2⟩; rw [h1]; exact h2

lemma solsOf_error_iff (x : Except Err BSRes) (e : Err) :
    solsOf x = .error e ↔ x = .error e := by
  cases x <;> simp [solsOf, Except.map]

/-- Case analysis on a successful `buildSolveCore` run. -/
lemma buildSolveCore_ok_cases (oracle : Oracle) (ds : Dataset) (a : Args) (res : BSRes)
    (h : buildSolveCore oracle ds a = .ok res) :
    ∃ M, buildModelE ds a = .ok M ∧ res.model = M ∧
      res.requestedPool = a.pool_solutions ∧ res.solCountMeta = (oracle M).solCount ∧
      (((oracle M).status.usable = false ∧ res.solutions = []) ∨
       ((oracle M).status.usable = true ∧ 0 < a.pool_solutions ∧ 0 < (oracle M).solCount ∧
         res.solutions = dedupSols (extractPooled M (oracle M) a.pool_solutions)) ∨
       ((oracle M).status.usable = true ∧ ¬(0 < a.pool_solutions ∧ 0 < (oracle M).solCount) ∧
         ∃ f, (oracle M).xRead = some f ∧
           res.solutions = dedupSols [{ sol_no := 0, selected := bestSelected M f,
                                        obj := (oracle M).objVal, iteration := none,
                                        excluded := [] }])) := by
  unfold buildSolveCore at h
  cases hM : buildModelE ds a with
  | error e => rw [hM] at h; cases h
  | ok M =>
    rw [hM] at h
    dsimp only at h
    refine ⟨M, rfl, ?_⟩
    unfold extractStep at h
    by_cases hu : (oracle M).status.usable
    · rw [if_pos hu] at h
      by_cases hp : 0 < a.pool_solutions ∧ 0 < (oracle M).solCount
      · rw [if_pos hp] at h
        injection h with h
        rw [← h]
        exact ⟨rfl, rfl, rfl, Or.inr (Or.inl ⟨hu, hp.1, hp.2, rfl⟩)⟩
      · rw [if_neg hp] at h
        cases hread : (oracle M).xRead with
        | none => rw [hread] at h; cases h
        | some f =>
          rw [hread] at h
          injection h with h
          rw [← h]
          exact ⟨rfl, rfl, rfl, Or.inr (Or.inr ⟨hu, hp, f, rfl, rfl⟩)⟩
    · rw [if_neg hu] at h
      injection h with h
      rw [← h]
      exact ⟨rfl, rfl, rfl, Or.inl ⟨by simpa using hu, rfl⟩⟩

lemma dedupGo_subset (seen : List (List String)) (l : List Sol) :
    ∀ x ∈ dedupGo seen l, x ∈ l := by
  induction l generalizing seen with
  | nil => intro x hx; cases hx
  | cons s rest ih =>
    intro x hx
    unfold dedupGo at hx
    by_cases h : sortKey s ∈ seen
    · rw [if_pos h] at hx
      exact List.mem_cons_of_mem _ (ih seen x hx)
    · rw [if_neg h] at hx
      rcases List.mem_cons.mp hx with h' | h'
      · rw [h']; exact List.mem_cons_self _ _
      · exact List.mem_cons_of_mem _ (ih _ x h')

lemma dedupSols_subset (l : List Sol) : ∀ x ∈ dedupSols l, x ∈ l :=
  dedupGo_subset [] l

lemma dedupGo_sublist (seen : List (List String)) (l : List Sol) :
    (dedupGo seen l).Sublist l := by
  induction l generalizing seen with
  | nil => exact List.Sublist.refl _
  | cons s rest ih =>
    unfold dedupGo
    by_cases h : sortKey s ∈ seen
    · rw [if_pos h]
      exact List.Sublist.cons _ (ih seen)
    · rw [if_neg h]
      exact List.Sublist.cons₂ _ (ih _)

lemma dedupGo_keys (seen : List (List String)) (l : List Sol) :
    ((dedupGo seen l).map sortKey).Nodup ∧ ∀ x ∈ dedupGo seen l, sortKey x ∉ seen := by
  induction l generalizing seen with
  | nil => exact ⟨List.nodup_nil, by intro x hx; cases hx⟩
  | cons s rest ih =>
    unfold dedupGo
    by_cases h : sortKey s ∈ seen
    · rw [if_pos h]
      exact ih seen
    · rw [if_neg h]
      obtain ⟨ihn, ihs⟩ := ih (sortKey s :: seen)
      constructor
      · rw [List.map_cons, List.nodup_cons]
        refine ⟨?_, ihn⟩
        intro hmem
        obtain ⟨x, hx, hkey⟩ := List.mem_map.mp hmem
        exact ihs x hx (by rw [hkey]; exact List.mem_cons_self _ _)
      · intro x hx
        rcases List.mem_cons.mp hx with h' | h'
        · rw [h']; exact h
        · intro hc
          exact ihs x h' (List.mem_cons_of_mem _ hc)

lemma dedupSols_keys_nodup (l : List Sol) : ((dedupSols l).map sortKey).Nodup :=
  (dedupGo_keys [] l).1

lemma dedupGo_complete (seen : List (List String)) (l : List Sol) :
    ∀ x ∈ l, sortKey x ∈ seen ∨ sortKey x ∈ (dedupGo seen l).map sortKey := by
  induction l generalizing seen with
  | nil => intro x hx; cases hx
  | cons s rest ih =>
    intro x hx
    unfold dedupGo
    by_cases h : sortKey s ∈ seen
    · rw [if_pos h]
      rcases List.mem_cons.mp hx with h' | h'
      · rw [h']; exact Or.inl h
      · exact ih seen x h'
    · rw [if_neg h]
      rcases List.mem_cons.mp hx with h' | h'
      · rw [h']
        exact Or.inr (by rw [List.map_cons]; exact List.mem_cons_self _ _)
      · rcases ih (sortKey s :: seen) x h' with h'' | h''
        · rcases List.mem_cons.mp h'' with h3 | h3
          · exact Or.inr (by rw [List.map_cons, h3]; exact List.mem_cons_self _ _)
          · exact Or.inl h3
        · exact Or.inr (by rw [List.map_cons]; exact List.mem_cons_of_mem _ h'')

lemma dedupGo_first_kept (x : Sol) (l₂ : List Sol) :
    ∀ (l₁ : List Sol) (seen : List (List String)),
      (∀ y ∈ l₁, sortKey y ≠ sortKey x) → sortKey x ∉ seen →
      x ∈ dedupGo seen (l₁ ++ x :: l₂) := by
  intro l₁
  induction l₁ with
  | nil =>
    intro seen _ hseen
    rw [List.nil_append]
    simp only [dedupGo]
    rw [if_neg hseen]
    exact List.mem_cons_self _ _
  | cons y t ih =>
    intro seen hne hseen
    have hyx : sortKey y ≠ sortKey x := hne y (List.mem_cons_self _ _)
    have hne' : ∀ z ∈ t, sortKey z ≠ sortKey x := fun z hz => hne z (List.mem_cons_of_mem _ hz)
    rw [List.cons_append]
    simp only [dedupGo]
    by_cases h : sortKey y ∈ seen
    · rw [if_pos h]
      exact ih seen hne' hseen
    · rw [if_neg h]
      apply List.mem_cons_of_mem
      apply ih (sortKey y :: seen) hne'
      intro hc
      rcases List.mem_cons.mp hc with h' | h'
      · exact hyx h'.symm
      · exact hseen h'

lemma dedupSols_singleton (s : Sol) : dedupSols [s] = [s] := by
  unfold dedupSols dedupGo
  rw [if_neg (List.not_mem_nil _)]
  rfl

lemma goodSel_roundArgs (ds : Dataset) (a : Args) (perSolve : Option ℚ)
    (exc : List (List String)) (sel : List String) :
    GoodSel ds (roundArgs a perSolve exc) sel ↔ GoodSel ds a sel := Iff.rfl

lemma extractPooled_mem (M : Model) (r : SolveResult) (pool : ℕ) (so : Sol)
    (h : so ∈ extractPooled M r pool) :
    ∃ s, s < min r.solCount pool ∧
      so = { sol_no := s, selected := slotSelected M r s,
             obj := (r.slotObjRead s).getD r.objVal, iteration := none, excluded := [] } := by
  unfold extractPooled at h
  obtain ⟨s, hs, hso⟩ := List.mem_map.mp h
  exact ⟨s, List.mem_range.mp hs, hso.symm⟩

lemma core_goodSel (oracle : Oracle) (ds : Dataset) (a : Args)
    (hids : (projectIds ds).Nodup)
    (hgr : ∀ g ∈ a.groups_exclusive, g.Nodup)
    (hconf : ConformsAll oracle)
    (hparse : ∀ p ∈ projectIds ds, parseVarName (varName p) = some p) :
    ∀ sols, solsOf (buildSolveCore oracle ds a) = .ok sols →
      ∀ so ∈ sols, GoodSel ds a so.selected := by
  intro sols hok so hso
  obtain ⟨res, hres, hsols⟩ := (solsOf_ok_iff _ _).mp hok
  obtain ⟨M, hM, _, _, _, hcases⟩ := buildSolveCore_ok_cases oracle ds a res hres
  have hparse' : ∀ p ∈ M.vars, parseVarName (varName p) = some p := by
    rw [buildModelE_ok_vars hM]; exact hparse
  rw [← hsols] at hso
  rcases hcases with ⟨_, hempty⟩ | ⟨_, _, hsc, heq⟩ | ⟨_, _, f, hread, heq⟩
  · rw [hempty] at hso; cases hso
  · rw [heq] at hso
    have hso2 := dedupSols_subset _ _ hso
    obtain ⟨s, hs, hform⟩ := extractPooled_mem M (oracle M) a.pool_solutions so hso2
    have hs' : s < (oracle M).solCount := lt_of_lt_of_le hs (min_le_left _ _)
    obtain ⟨g, hfg, hselg⟩ := slotSelected_feasible_form M (oracle M) s (hconf M) hs' hparse'
    have : so.selected = bestSelected M g := by rw [hform]; exact hselg
    rw [this]
    exact goodSel_of_feasible ds a M g hids hgr hM hfg
  · rw [heq, dedupSols_singleton] at hso
    rcases List.mem_singleton.mp hso with h'
    rw [h']
    exact goodSel_of_feasible ds a M f hids hgr hM ((hconf M).x_good f hread).1

lemma enumGo_goodSel (oracle : Oracle) (ds : Dataset) (a : Args) (perSolve : Option ℚ)
    (hids : (projectIds ds).Nodup)
    (hgr : ∀ g ∈ a.groups_exclusive, g.Nodup)
    (hconf : ConformsAll oracle)
    (hparse : ∀ p ∈ projectIds ds, parseVarName (varName p) = some p) :
    ∀ (fuel i : ℕ) (found : List Sol) (exc : List (List String)) (out : List Sol),
      enumGo oracle ds a perSolve fuel i found exc = .ok out →
      (∀ e ∈ found, GoodSel ds a e.selected) →
      ∀ e ∈ out, GoodSel ds a e.selected := by
  intro fuel
  induction fuel with
  | zero =>
    intro i found exc out h hfound
    injection h with h
    rw [← h]
    exact hfound
  | succ n ih =>
    intro i found exc out h hfound
    rw [show enumGo oracle ds a perSolve (n + 1) i found exc
        = match buildSolveCore oracle ds (roundArgs a perSolve exc) with
          | .error e => .error e
          | .ok res =>
            match res.solutions with
            | [] => .ok found
            | best :: _ =>
              let entry : Sol := { best with sol_no := i, iteration := some i, excluded := exc }
              if best.selected = [] then .ok (found ++ [entry])
              else enumGo oracle ds a perSolve n (i + 1) (found ++ [entry])
                (exc ++ [best.selected]) from rfl] at h
    cases hcore : buildSolveCore oracle ds (roundArgs a perSolve exc) with
    | error e => rw [hcore] at h; cases h
    | ok res =>
      rw [hcore] at h
      dsimp only at h
      have hbestGood : ∀ best ∈ res.solutions, GoodSel ds a best.selected := by
        intro best hbest
        have hok : solsOf (buildSolveCore oracle ds (roundArgs a perSolve exc))
            = .ok res.solutions := by rw [hcore]; rfl
        have := core_goodSel oracle ds (roundArgs a perSolve exc) hids hgr hconf hparse
          res.solutions hok best hbest
        exact (goodSel_roundArgs ds a perSolve exc best.selected).mp this
      cases hsols : res.solutions with
      | nil =>
        rw [hsols] at h
        injection h with h
        rw [← h]
        exact hfound
      | cons best rest =>
        rw [hsols] at h
        dsimp only at h
        have hbg : GoodSel ds a best.selected :=
          hbestGood best (by rw [hsols]; exact List.mem_cons_self _ _)
        have hfound' : ∀ e ∈ found ++
            [{ best with sol_no := i, iteration := some i, excluded := exc }],
            GoodSel ds a e.selected := by
          intro e he
          rcases List.mem_append.mp he with he | he
          · exact hfound e he
          · rw [List.mem_singleton.mp he]
            exact hbg
        by_cases hsel : best.selected = []
        · rw [if_pos hsel] at h
          injection h with h
          rw [← h]
          exact hfound'
        · rw [if_neg hsel] at h
          exact ih (i + 1) _ _ out h hfound'

lemma enumerate_goodSel (oracle : Oracle) (ds : Dataset) (a : Args) (k : ℕ)
    (tps : Option ℚ)
    (hids : (projectIds ds).Nodup)
    (hgr : ∀ g ∈ a.groups_exclusive, g.Nodup)
    (hconf : ConformsAll oracle)
    (hparse : ∀ p ∈ projectIds ds, parseVarName (varName p) = some p) :
    ∀ E, enumerate_k_best oracle ds a k tps = .ok E →
      ∀ e ∈ E, GoodSel ds a e.selected := by
  intro E h
  exact enumGo_goodSel oracle ds a _ hids hgr hconf hparse k 0 [] [] E h
    (by intro e he; cases he)

lemma build_solve_goodSel (oracle : Oracle) (ds : Dataset) (a : Args)
    (hids : (projectIds ds).Nodup)
    (hgr : ∀ g ∈ a.groups_exclusive, g.Nodup)
    (hconf : ConformsAll oracle)
    (hparse : ∀ p ∈ projectIds ds, parseVarName (varName p) = some p) :
    ∀ sols, solsOf (build_solve oracle ds a) = .ok sols →
      ∀ so ∈ sols, GoodSel ds a so.selected := by
  intro sols h so hso
  unfold build_solve at h
  cases hcore : buildSolveCore oracle ds a with
  | error e => rw [hcore] at h; simp [solsOf, Except.map] at h
  | ok res =>
    rw [hcore] at h
    dsimp only at h
    have hcoreSols : solsOf (buildSolveCore oracle ds a) = .ok res.solutions := by
      rw [hcore]; rfl
    by_cases hf : 0 < a.pool_solutions ∧ res.solutions.length < a.pool_solutions
    · rw [if_pos hf] at h
      cases henum : enumerate_k_best oracle ds a a.pool_solutions (fallbackTPS a) with
      | error e => rw [henum] at h; simp [solsOf, Except.map] at h
      | ok E =>
        rw [henum] at h
        dsimp only at h
        by_cases hE : E = []
        · rw [if_pos hE] at h
          simp only [solsOf, Except.map, Except.ok.injEq] at h
          rw [← h] at hso
          exact core_goodSel oracle ds a hids hgr hconf hparse res.solutions hcoreSols so hso
        · rw [if_neg hE] at h
          simp only [solsOf, Except.map, Except.ok.injEq] at h
          rw [← h] at hso
          have hsoE : so ∈ E := List.mem_of_mem_take hso
          exact enumerate_goodSel oracle ds a a.pool_solutions (fallbackTPS a)
            hids hgr hconf hparse E henum so hsoE
    · rw [if_neg hf] at h
      simp only [solsOf, Except.map, Except.ok.injEq] at h
      rw [← h] at hso
      exact core_goodSel oracle ds a hids hgr hconf hparse res.solutions hcoreSols so hso

/-- With `pool_solutions = 0` the fallback block of `build_solve` is inert,
so the rounds of `enumerate_k_best` (which pass `pool_solutions=0`) may be
modelled by `buildSolveCore`. -/
lemma build_solve_pool_zero (oracle : Oracle) (ds : Dataset) (a : Args)
    (h : a.pool_solutions = 0) :
    build_solve oracle ds a = buildSolveCore oracle ds a := by
  unfold build_solve
  cases hcore : buildSolveCore oracle ds a with
  | error e => rfl
  | ok res =>
    dsimp only
    rw [if_neg]
    intro hc
    rw [h] at hc
    exact Nat.lt_irrefl 0 hc.1

/-- `sum over p in S of x[p] <= |S| - 1`, the exclusion constraint of C5. -/
def exclusionCon (S : List String) : LinCon :=
  ⟨S.map (fun p => (p, 1)), .le, (S.length : ℚ) - 1⟩

def modelConstrsOf (x : Except Err Model) : List LinCon :=
  match x with
  | .ok M => M.constrs
  | .error _ => []

/-- Claim C1 (amended): for every dataset (with unique project ids) and
configuration (with duplicate-free exclusivity groups), under the solver
contract and provided variable-name parsing recovers every project id exactly
(as it does for ids of the form `P<suffix>` with a single `P` and no `]`/`_`),
every Solution in the batch returned by `build_solve` has a selected-id set
satisfying each constraint added to the model, re-checked by direct summation:
cost sum within budget, each present-column resource cap, at most one selected
member per exclusivity group, dependency closure for pairs with both ids
present, each regional min/max quota whose region has resident projects, and
the cardinality limit when set. -/
theorem C1_amended (oracle : Oracle) (ds : Dataset) (a : Args)
    (hids : (projectIds ds).Nodup)
    (hgr : ∀ g ∈ a.groups_exclusive, g.Nodup)
    (hconf : ConformsAll oracle)
    (hparse : ∀ p ∈ projectIds ds, parseVarName (varName p) = some p) :
    ∀ sols, solsOf (build_solve oracle ds a) = .ok sols →
      ∀ so ∈ sols, GoodSel ds a so.selected :=
  build_solve_goodSel oracle ds a hids hgr hconf hparse

def ds_w1 : Dataset :=
  { rows := [{ proj_id := "P1", cost := 1, benefit := 2, social_score := 0, region := "",
               res := fun _ => 0 }],
    hasSocial := false, hasRegion := false, resCols := [] }

def a_w1 : Args := { budget := 5 }

theorem C1_amended_witness :
    ((projectIds ds_w1).Nodup ∧ (∀ g ∈ a_w1.groups_exclusive, g.Nodup) ∧
      (∀ p ∈ projectIds ds_w1, parseVarName (varName p) = some p) ∧
      solsOf (build_solve zeroOracle ds_w1 a_w1)
        = .ok [{ sol_no := 0, selected := [], obj := 0, iteration := none, excluded := [] }]) ∧
    (∀ so ∈ [({ sol_no := 0, selected := [], obj := 0, iteration := none,
                excluded := [] } : Sol)], GoodSel ds_w1 a_w1 so.selected) :=
  ⟨⟨by decide, by decide, by with_unfolding_all decide, by with_unfolding_all decide⟩,
   C1_amended zeroOracle ds_w1 a_w1 (by decide) (by decide) zeroOracle_conformsAll
     (by with_unfolding_all decide) _ (by with_unfolding_all decide)⟩

def ds_c1 : Dataset :=
  { rows := [
      { proj_id := "A", cost := 1, benefit := 1, social_score := 0, region := "",
        res := fun _ => 0 },
      { proj_id := "PB", cost := 1, benefit := 1, social_score := 0, region := "",
        res := fun _ => 0 }],
    hasSocial := false, hasRegion := false, resCols := [] }

def a_c1 : Args := { budget := 10, dependencies := [("A", "PB")], pool_solutions := 1 }

/-- Claim C1 counterexample: with projects `A` and `PB`, `PB` requiring `A`,
and a conformant solver whose pool slot selects both, the pooled extraction
drops `A` (its variable name `x[A]` contains no `P`), so `build_solve`
returns the selection `["PB"]`, which violates the dependency re-check. -/
theorem C1_counterexample :
    ConformsAll (listOracle [oneAsg]) ∧
    solsOf (build_solve (listOracle [oneAsg]) ds_c1 a_c1)
      = .ok [{ sol_no := 0, selected := ["PB"], obj := 2, iteration := none, excluded := [] }] ∧
    ("A", "PB") ∈ a_c1.dependencies ∧ "A" ∈ projectIds ds_c1 ∧ "PB" ∈ projectIds ds_c1 ∧
    ¬ GoodSel ds_c1 a_c1 ["PB"] :=
  ⟨onesOracle_conformsAll, by with_unfolding_all decide, by decide, by decide, by decide,
   fun h => by
     have hdep := h.2.2.2.1 ("A", "PB") (by decide) (by decide) (by decide) (by decide)
     exact absurd hdep (by decide)⟩

/-- Claim C5: for every non-empty previously-found selection set `S` passed
via `exclude_sets` whose members all exist among the candidate ids, the built
model contains the constraint `sum over p in S of x[p] <= |S| - 1`, and every
feasible (binary, all-constraints-satisfying) assignment leaves at least one
member of `S` unselected. -/
theorem C5_confirmed (ds : Dataset) (a : Args) (S : List String)
    (h0 : (buildModelE ds a).isOk = true)
    (h1 : S ∈ a.exclude_sets) (h2 : S ≠ [])
    (h3 : ∀ p ∈ S, p ∈ projectIds ds) :
    exclusionCon S ∈ modelConstrsOf (buildModelE ds a) ∧
    ∀ f, binaryOn (projectIds ds) f →
      satList f (modelConstrsOf (buildModelE ds a)) → ∃ p ∈ S, f p = 0 := by
  cases hM : buildModelE ds a with
  | error e => rw [hM] at h0; simp [Except.isOk, Except.toBool] at h0
  | ok M =>
    have hfilter : S.filter (fun p => decide (p ∈ projectIds ds)) = S := by
      apply List.filter_eq_self.mpr
      intro p hp
      exact decide_eq_true (h3 p hp)
    have hmem : exclusionCon S ∈ M.constrs := by
      rw [buildModelE_ok_constrs hM]
      have hx : exclusionCon S ∈ excludeCons ds a := by
        apply List.mem_filterMap.mpr
        refine ⟨S, h1, ?_⟩
        show (if S.filter (fun p => decide (p ∈ projectIds ds)) = [] then none
              else some ⟨(S.filter (fun p => decide (p ∈ projectIds ds))).map (fun p => (p, 1)),
                .le, ((S.filter (fun p => decide (p ∈ projectIds ds))).length : ℚ) - 1⟩)
            = some (exclusionCon S)
        rw [hfilter, if_neg h2]
        rfl
      simp [List.mem_append, hx]
    constructor
    · exact hmem
    · intro f hbin hsat
      by_contra hc
      push_neg at hc
      have hall : ∀ p ∈ S, f p = 1 := by
        intro p hp
        rcases hbin p (h3 p hp) with h | h
        · exact absurd h (hc p hp)
        · exact h
      have hs : ((S.map (fun p => (p, (1 : ℚ)))).map (fun t => t.2 * f t.1)).sum
          ≤ (S.length : ℚ) - 1 := by
        exact hsat _ hmem
      have hsum : ((S.map (fun p => (p, (1 : ℚ)))).map (fun t => t.2 * f t.1)).sum
          = (S.length : ℚ) := by
        rw [List.map_map]
        have h1' : S.map ((fun t : String × ℚ => t.2 * f t.1) ∘ fun p => (p, (1 : ℚ)))
            = S.map (fun _ => (1 : ℚ)) := by
          apply List.map_congr_left
          intro p hp
          show 1 * f p = 1
          rw [hall p hp, mul_one]
        rw [h1', sum_map_one]
      rw [hsum] at hs
      have hpos : 0 < S.length := List.length_pos.mpr h2
      have hposq : (0 : ℚ) < (S.length : ℚ) := by exact_mod_cast hpos
      linarith

def ds_w5 : Dataset :=
  { rows := [
      { proj_id := "P1", cost := 1, benefit := 1, social_score := 0, region := "",
        res := fun _ => 0 },
      { proj_id := "P2", cost := 2, benefit := 3, social_score := 0, region := "",
        res := fun _ => 0 }],
    hasSocial := false, hasRegion := false, resCols := [] }

def a_w5 : Args := { budget := 4, exclude_sets := [["P1"]] }

theorem C5_confirmed_witness :
    ((buildModelE ds_w5 a_w5).isOk = true ∧ ["P1"] ∈ a_w5.exclude_sets ∧
      (["P1"] : List String) ≠ [] ∧ (∀ p ∈ (["P1"] : List String), p ∈ projectIds ds_w5)) ∧
    (exclusionCon ["P1"] ∈ modelConstrsOf (buildModelE ds_w5 a_w5) ∧
      ∀ f, binaryOn (projectIds ds_w5) f →
        satList f (modelConstrsOf (buildModelE ds_w5 a_w5)) →
        ∃ p ∈ (["P1"] : List String), f p = 0) :=
  ⟨⟨by with_unfolding_all decide, by decide, by decide, by decide⟩,
   C5_confirmed ds_w5 a_w5 ["P1"] (by with_unfolding_all decide) (by decide) (by decide)
     (by decide)⟩

def ds_w8 : Dataset :=
  { rows := [{ proj_id := "P1", cost := 1, benefit := 1, social_score := 0, region := "",
               res := fun _ => 0 }],
    hasSocial := false, hasRegion := false, resCols := [] }

def a_w8 : Args := { budget := 3 }

/-- Claim C8 (code bug): for the infeasible and unbounded terminal statuses,
`build_solve` does return an empty batch without raising; but a usable status
with no incumbent (time limit hit before any feasible point) falls into the
single-best read, whose `x[p].X` read fails and raises — the code's own
comment says this branch also covers "no solutions found". -/
theorem C8_codebug :
    ConformsAll (statusOracle .timeLimit) ∧
    solsOf (build_solve (statusOracle .timeLimit) ds_w8 a_w8) = .error .attrRead ∧
    ConformsAll (statusOracle .infeasible) ∧
    solsOf (build_solve (statusOracle .infeasible) ds_w8 a_w8) = .ok [] ∧
    ConformsAll (statusOracle .unbounded) ∧
    solsOf (build_solve (statusOracle .unbounded) ds_w8 a_w8) = .ok [] :=
  ⟨statusOracle_conformsAll .timeLimit (by decide) (by decide),
   by with_unfolding_all decide,
   statusOracle_conformsAll .infeasible (by decide) (by decide),
   by with_unfolding_all decide,
   statusOracle_conformsAll .unbounded (by decide) (by decide),
   by with_unfolding_all decide⟩

/-- Claim C9: a non-empty regional-quota mapping over a dataset without a
region column makes `build_solve` fail with the configuration error, for
every solver — the result does not depend on the solver at all, so no solve
attempt is consulted, and the error is surfaced, never swallowed. -/
theorem C9_confirmed (ds : Dataset) (a : Args)
    (h1 : ds.hasRegion = false) (h2 : a.region_min_max ≠ []) :
    ∀ oracle : Oracle, solsOf (build_solve oracle ds a) = .error .configRegion := by
  intro oracle
  have hM : buildModelE ds a = .error .configRegion := by
    unfold buildModelE
    rw [if_pos ⟨h2, h1⟩]
  unfold build_solve buildSolveCore
  rw [hM]
  rfl

def ds_w9 : Dataset :=
  { rows := [{ proj_id := "P1", cost := 1, benefit := 1, social_score := 0, region := "",
               res := fun _ => 0 }],
    hasSocial := false, hasRegion := false, resCols := [] }

def a_w9 : Args := { budget := 1, region_min_max := [("R", some 1, none)] }

theorem C9_confirmed_witness :
    (ds_w9.hasRegion = false ∧ a_w9.region_min_max ≠ []) ∧
    solsOf (build_solve zeroOracle ds_w9 a_w9) = .error .configRegion :=
  ⟨⟨rfl, by decide⟩, C9_confirmed ds_w9 a_w9 rfl (by decide) zeroOracle⟩

lemma enumGo_shape (oracle : Oracle) (ds : Dataset) (a : Args) (perSolve : Option ℚ) :
    ∀ (fuel i : ℕ) (found : List Sol) (exc : List (List String)) (out : List Sol),
      enumGo oracle ds a perSolve fuel i found exc = .ok out →
      (∀ e ∈ found, e.selected ≠ []) → (∀ e ∈ found, [] ∉ e.excluded) → [] ∉ exc →
      (∀ e ∈ out.dropLast, e.selected ≠ []) ∧ (∀ e ∈ out, [] ∉ e.excluded) ∧
        out.countP (fun e => e.selected.isEmpty) ≤ 1 := by
  intro fuel
  induction fuel with
  | zero =>
    intro i found exc out h hne hex _
    injection h with h
    rw [← h]
    refine ⟨fun e he => hne e ((List.dropLast_sublist found).subset he), hex, ?_⟩
    have : found.countP (fun e => e.selected.isEmpty) = 0 := by
      apply List.countP_eq_zero.mpr
      intro e he
      simpa using hne e he
    rw [this]
    exact Nat.zero_le 1
  | succ n ih =>
    intro i found exc out h hne hex hexc
    rw [show enumGo oracle ds a perSolve (n + 1) i found exc
        = match buildSolveCore oracle ds (roundArgs a perSolve exc) with
          | .error e => .error e
          | .ok res =>
            match res.solutions with
            | [] => .ok found
            | best :: _ =>
              let entry : Sol := { best with sol_no := i, iteration := some i, excluded := exc }
              if best.selected = [] then .ok (found ++ [entry])
              else enumGo oracle ds a perSolve n (i + 1) (found ++ [entry])
                (exc ++ [best.selected]) from rfl] at h
    cases hcore : buildSolveCore oracle ds (roundArgs a perSolve exc) with
    | error e => rw [hcore] at h; cases h
    | ok res =>
      rw [hcore] at h
      dsimp only at h
      cases hsols : res.solutions with
      | nil =>
        rw [hsols] at h
        injection h with h
        rw [← h]
        refine ⟨fun e he => hne e ((List.dropLast_sublist found).subset he), hex, ?_⟩
        have : found.countP (fun e => e.selected.isEmpty) = 0 := by
          apply List.countP_eq_zero.mpr
          intro e he
          simpa using hne e he
        rw [this]
        exact Nat.zero_le 1
      | cons best rest =>
        rw [hsols] at h
        dsimp only at h
        by_cases hsel : best.selected = []
        · rw [if_pos hsel] at h
          injection h with h
          rw [← h]
          refine ⟨?_, ?_, ?_⟩
          · rw [List.dropLast_concat]
            exact hne
          · intro e he
            rcases List.mem_append.mp he with he | he
            · exact hex e he
            · rw [List.mem_singleton.mp he]
              exact hexc
          · rw [List.countP_append]
            have h0 : found.countP (fun e => e.selected.isEmpty) = 0 := by
              apply List.countP_eq_zero.mpr
              intro e he
              simpa using hne e he
            rw [h0]
            have hle : List.countP (fun e => e.selected.isEmpty)
                [{ best with sol_no := i, iteration := some i, excluded := exc }]
                ≤ ([{ best with sol_no := i, iteration := some i, excluded := exc }] : List Sol).length :=
              List.countP_le_length _
            simpa using hle
        · rw [if_neg hsel] at h
          apply ih (i + 1) _ _ out h
          · intro e he
            rcases List.mem_append.mp he with he | he
            · exact hne e he
            · rw [List.mem_singleton.mp he]
              exact hsel
          · intro e he
            rcases List.mem_append.mp he with he | he
            · exact hex e he
            · rw [List.mem_singleton.mp he]
              exact hexc
          · intro hc
            rcases List.mem_append.mp hc with hc | hc
            · exact hexc hc
            · exact hsel (List.mem_singleton.mp hc).symm

/-- Claim C10: in `enumerate_k_best`, an empty-selection Solution can only be
the final entry of the returned list (the enumeration stops right after
appending it), the empty set is never added to the exclusion sets recorded on
the entries, and at most one returned Solution has an empty selection. -/
theorem C10_confirmed (oracle : Oracle) (ds : Dataset) (a : Args) (k : ℕ) (tps : Option ℚ)
    (out : List Sol) (h : enumerate_k_best oracle ds a k tps = .ok out) :
    (∀ e ∈ out.dropLast, e.selected ≠ []) ∧ (∀ e ∈ out, [] ∉ e.excluded) ∧
      out.countP (fun e => e.selected.isEmpty) ≤ 1 :=
  enumGo_shape oracle ds a _ k 0 [] [] out h (fun e he => absurd he (List.not_mem_nil e))
    (fun e he => absurd he (List.not_mem_nil e)) (List.not_mem_nil [])

def w10sol : Sol :=
  { sol_no := 0, selected := [], obj := 0, iteration := some 0, excluded := [] }

def ds_w10 : Dataset :=
  { rows := [{ proj_id := "P1", cost := 1, benefit := 1, social_score := 0, region := "",
               res := fun _ => 0 }],
    hasSocial := false, hasRegion := false, resCols := [] }

def a_w10 : Args := { budget := 10 }

theorem C10_confirmed_witness :
    (enumerate_k_best zeroOracle ds_w10 a_w10 2 none = .ok [w10sol]) ∧
    ((∀ e ∈ [w10sol].dropLast, e.selected ≠ []) ∧
     (∀ e ∈ [w10sol], [] ∉ e.excluded) ∧
     [w10sol].countP (fun e => e.selected.isEmpty) ≤ 1) :=
  ⟨by with_unfolding_all decide,
   C10_confirmed zeroOracle ds_w10 a_w10 2 none _ (by with_unfolding_all decide)⟩

/-- The enumeration loop as claim C4 words it: every round's Solution has its
selected-id set added to the exclusions and the loop advances unless
`i+1 = k` — with no empty-selection stop. -/
def enumClaimedGo (oracle : Oracle) (ds : Dataset) (a : Args) (perSolve : Option ℚ) :
    ℕ → ℕ → List Sol → List (List String) → Except Err (List Sol)
  | 0, _, acc, _ => .ok acc
  | fuel + 1, i, acc, excl =>
    match buildSolveCore oracle ds (roundArgs a perSolve excl) with
    | .error e => .error e
    | .ok res =>
      match res.solutions with
      | [] => .ok acc
      | best :: _ =>
        enumClaimedGo oracle ds a perSolve fuel (i + 1)
          (acc ++ [{ best with sol_no := i, iteration := some i, excluded := excl }])
          (excl ++ [best.selected])

/-- `enumerate_k_best` as described by claim C4, literally. -/
def enumerate_k_best_claimed (oracle : Oracle) (ds : Dataset) (a : Args) (k : ℕ)
    (time_per_solve : Option ℚ) : Except Err (List Sol) :=
  let perSolve := match time_per_solve with
    | some t => some t
    | none => a.time_limit
  enumClaimedGo oracle ds a perSolve k 0 [] []

/-- One round of the amended claim C4: re-solve single-best with the
accumulated exclusions; report the round's best Solution, if any. -/
def kBestRound (oracle : Oracle) (ds : Dataset) (a : Args) (perSolve : Option ℚ)
    (exc : List (List String)) : Except Err (Option Sol) :=
  match solsOf (buildSolveCore oracle ds (roundArgs a perSolve exc)) with
  | .error e => .error e
  | .ok [] => .ok none
  | .ok (b :: _) => .ok (some b)

/-- The amended claim C4, written from its words: round `i` re-solves with the
exclusions accumulated so far; no Solution stops the loop; otherwise the
Solution is relabeled to `i` and appended; if its selection is non-empty it is
added to the exclusions and the loop advances unless `i+1 = k`; an
empty-selection round stops the loop without excluding the empty set. -/
def kBestSpecGo (oracle : Oracle) (ds : Dataset) (a : Args) (perSolve : Option ℚ) :
    ℕ → ℕ → List Sol → List (List String) → Except Err (List Sol)
  | 0, _, acc, _ => .ok acc
  | fuel + 1, i, acc, excl =>
    match kBestRound oracle ds a perSolve excl with
    | .error e => .error e
    | .ok none => .ok acc
    | .ok (some best) =>
      let entry : Sol := { best with sol_no := i, iteration := some i, excluded := excl }
      if best.selected = [] then .ok (acc ++ [entry])
      else kBestSpecGo oracle ds a perSolve fuel (i + 1) (acc ++ [entry])
        (excl ++ [best.selected])

def enumerate_k_best_amendedSpec (oracle : Oracle) (ds : Dataset) (a : Args) (k : ℕ)
    (time_per_solve : Option ℚ) : Except Err (List Sol) :=
  let perSolve := match time_per_solve with
    | some t => some t
    | none => a.time_limit
  kBestSpecGo oracle ds a perSolve k 0 [] []

lemma enumGo_eq_spec (oracle : Oracle) (ds : Dataset) (a : Args) (perSolve : Option ℚ) :
    ∀ (fuel i : ℕ) (acc : List Sol) (excl : List (List String)),
      enumGo oracle ds a perSolve fuel i acc excl
        = kBestSpecGo oracle ds a perSolve fuel i acc excl := by
  intro fuel
  induction fuel with
  | zero => intro i acc excl; rfl
  | succ n ih =>
    intro i acc excl
    rw [show enumGo oracle ds a perSolve (n + 1) i acc excl
        = match buildSolveCore oracle ds (roundArgs a perSolve excl) with
          | .error e => .error e
          | .ok res =>
            match res.solutions with
            | [] => .ok acc
            | best :: _ =>
              let entry : Sol := { best with sol_no := i, iteration := some i, excluded := excl }
              if best.selected = [] then .ok (acc ++ [entry])
              else enumGo oracle ds a perSolve n (i + 1) (acc ++ [entry])
                (excl ++ [best.selected]) from rfl]
    rw [show kBestSpecGo oracle ds a perSolve (n + 1) i acc excl
        = match kBestRound oracle ds a perSolve excl with
          | .error e => .error e
          | .ok none => .ok acc
          | .ok (some best) =>
            let entry : Sol := { best with sol_no := i, iteration := some i, excluded := excl }
            if best.selected = [] then .ok (acc ++ [entry])
            else kBestSpecGo oracle ds a perSolve n (i + 1) (acc ++ [entry])
              (excl ++ [best.selected]) from rfl]
    cases hcore : buildSolveCore oracle ds (roundArgs a perSolve excl) with
    | error e =>
      have hr : kBestRound oracle ds a perSolve excl = .error e := by
        unfold kBestRound
        rw [show solsOf (buildSolveCore oracle ds (roundArgs a perSolve excl)) = .error e from
          by rw [hcore]; rfl]
      rw [hr]
    | ok res =>
      dsimp only
      cases hsols : res.solutions with
      | nil =>
        have hr : kBestRound oracle ds a perSolve excl = .ok none := by
          unfold kBestRound
          rw [show solsOf (buildSolveCore oracle ds (roundArgs a perSolve excl))
              = .ok res.solutions from by rw [hcore]; rfl, hsols]
        rw [hr]
      | cons best rest =>
        have hr : kBestRound oracle ds a perSolve excl = .ok (some best) := by
          unfold kBestRound
          rw [show solsOf (buildSolveCore oracle ds (roundArgs a perSolve excl))
              = .ok res.solutions from by rw [hcore]; rfl, hsols]
        rw [hr]
        dsimp only
        by_cases hsel : best.selected = []
        · rw [if_pos hsel, if_pos hsel]
        · rw [if_neg hsel, if_neg hsel, ih]

lemma enumGo_len_solno (oracle : Oracle) (ds : Dataset) (a : Args) (perSolve : Option ℚ) :
    ∀ (fuel i : ℕ) (acc : List Sol) (excl : List (List String)) (out : List Sol),
      enumGo oracle ds a perSolve fuel i acc excl = .ok out →
      i = acc.length →
      (∀ j (hj : j < acc.length), (acc.get ⟨j, hj⟩).sol_no = j) →
      out.length ≤ acc.length + fuel ∧
        ∀ j (hj : j < out.length), (out.get ⟨j, hj⟩).sol_no = j := by
  intro fuel
  induction fuel with
  | zero =>
    intro i acc excl out h _ hidx
    injection h with h
    rw [← h]
    exact ⟨Nat.le_add_right _ _, hidx⟩
  | succ n ih =>
    intro i acc excl out h hi hidx
    rw [show enumGo oracle ds a perSolve (n + 1) i acc excl
        = match buildSolveCore oracle ds (roundArgs a perSolve excl) with
          | .error e => .error e
          | .ok res =>
            match res.solutions with
            | [] => .ok acc
            | best :: _ =>
              let entry : Sol := { best with sol_no := i, iteration := some i, excluded := excl }
              if best.selected = [] then .ok (acc ++ [entry])
              else enumGo oracle ds a perSolve n (i + 1) (acc ++ [entry])
                (excl ++ [best.selected]) from rfl] at h
    have hext : ∀ entry : Sol, entry.sol_no = i →
        ∀ j (hj : j < (acc ++ [entry]).length), ((acc ++ [entry]).get ⟨j, hj⟩).sol_no = j := by
      intro entry hentry j hj
      rw [List.get_eq_getElem]
      rcases Nat.lt_or_ge j acc.length with hlt | hge
      · rw [List.getElem_append_left hlt]
        have := hidx j hlt
        rw [List.get_eq_getElem] at this
        exact this
      · have hj' : j < acc.length + 1 := by simpa using hj
        have hje : j = acc.length := Nat.le_antisymm (Nat.lt_succ_iff.mp hj') hge
        subst hje
        simp [List.getElem_concat_length, hentry, hi]
    cases hcore : buildSolveCore oracle ds (roundArgs a perSolve excl) with
    | error e => rw [hcore] at h; cases h
    | ok res =>
      rw [hcore] at h
      dsimp only at h
      cases hsols : res.solutions with
      | nil =>
        rw [hsols] at h
        injection h with h
        rw [← h]
        exact ⟨Nat.le_add_right _ _, hidx⟩
      | cons best rest =>
        rw [hsols] at h
        dsimp only at h
        by_cases hsel : best.selected = []
        · rw [if_pos hsel] at h
          injection h with h
          rw [← h]
          refine ⟨?_, hext _ rfl⟩
          simp only [List.length_append, List.length_singleton]
          omega
        · rw [if_neg hsel] at h
          have := ih (i + 1) _ _ out h (by rw [List.length_append, hi]; rfl) (hext _ rfl)
          refine ⟨?_, this.2⟩
          have h1 := this.1
          simp only [List.length_append, List.length_singleton] at h1
          omega

/-- Claim C4 counterexample: with a conformant solver whose optimum is the
empty selection, the code's loop stops after round 0 (one Solution), whereas
the loop described by the claim — which always adds the round's selected-id
set to the exclusions and advances — would run round 1 and return two
Solutions. -/
theorem C4_counterexample :
    ConformsAll zeroOracle ∧
    (enumerate_k_best zeroOracle ds_w10 a_w10 2 none).map List.length = .ok 1 ∧
    (enumerate_k_best_claimed zeroOracle ds_w10 a_w10 2 none).map List.length = .ok 2 :=
  ⟨zeroOracle_conformsAll, by with_unfolding_all decide, by with_unfolding_all decide⟩

/-- Claim C4 (amended): `enumerate_k_best` behaves exactly as the claim says
except that a round whose Solution has an empty selected-id set is appended
and then stops the loop (its set is not added to the exclusions); hence the
result holds at most `k` Solutions with sequence numbers `0..len-1` in
order. -/
theorem C4_amended (oracle : Oracle) (ds : Dataset) (a : Args) (k : ℕ) (tps : Option ℚ) :
    enumerate_k_best oracle ds a k tps = enumerate_k_best_amendedSpec oracle ds a k tps ∧
    ∀ out, enumerate_k_best oracle ds a k tps = .ok out →
      out.length ≤ k ∧ ∀ j (hj : j < out.length), (out.get ⟨j, hj⟩).sol_no = j := by
  constructor
  · unfold enumerate_k_best enumerate_k_best_amendedSpec
    exact enumGo_eq_spec oracle ds a _ k 0 [] []
  · intro out h
    have := enumGo_len_solno oracle ds a _ k 0 [] [] out h rfl
      (by intro j hj; cases hj)
    simpa using this

theorem C4_amended_witness :
    (enumerate_k_best zeroOracle ds_w10 a_w10 2 none
      = enumerate_k_best_amendedSpec zeroOracle ds_w10 a_w10 2 none) ∧
    (([w10sol] : List Sol).length ≤ 2 ∧
     ∀ j (hj : j < ([w10sol] : List Sol).length),
       (([w10sol] : List Sol).get ⟨j, hj⟩).sol_no = j) :=
  ⟨(C4_amended zeroOracle ds_w10 a_w10 2 none).1,
   (C4_amended zeroOracle ds_w10 a_w10 2 none).2 _ (by with_unfolding_all decide)⟩

/-- Claim C3 (amended): the fallback enumeration influences the result exactly
when `pool_solutions > 0` and the deduplicated native batch has fewer than
`pool_solutions` Solutions; when invoked, a non-empty enumeration output
replaces the native batch, truncated to the first `pool_solutions` entries,
while an empty enumeration output leaves the native batch in place (and an
enumeration error propagates). -/
theorem C3_amended (oracle : Oracle) (ds : Dataset) (a : Args) :
    ∀ sols, solsOf (buildSolveCore oracle ds a) = .ok sols →
      (¬(0 < a.pool_solutions ∧ sols.length < a.pool_solutions) →
        solsOf (build_solve oracle ds a) = .ok sols) ∧
      ((0 < a.pool_solutions ∧ sols.length < a.pool_solutions) →
        solsOf (build_solve oracle ds a)
          = (enumerate_k_best oracle ds a a.pool_solutions (fallbackTPS a)).map
              (fun E => if E = [] then sols else E.take a.pool_solutions)) := by
  intro sols h
  obtain ⟨res, hres, hsols⟩ := (solsOf_ok_iff _ _).mp h
  constructor
  · intro hno
    unfold build_solve
    rw [hres]
    dsimp only
    rw [if_neg (by rw [hsols]; exact hno)]
    rw [← hsols]
    rfl
  · intro hyes
    unfold build_solve
    rw [hres]
    dsimp only
    rw [if_pos (by rw [hsols]; exact hyes)]
    cases henum : enumerate_k_best oracle ds a a.pool_solutions (fallbackTPS a) with
    | error e => rfl
    | ok E =>
      dsimp only
      by_cases hE : E = []
      · rw [if_pos hE]
        show solsOf (.ok res) = .ok (if E = [] then sols else E.take a.pool_solutions)
        rw [if_pos hE]
        show Except.ok res.solutions = Except.ok sols
        rw [hsols]
      · rw [if_neg hE]
        show solsOf (.ok { res with solutions := E.take a.pool_solutions })
            = .ok (if E = [] then sols else E.take a.pool_solutions)
        rw [if_neg hE]
        rfl

def singleEmptySol : Sol :=
  { sol_no := 0, selected := [], obj := 0, iteration := none, excluded := [] }

theorem C3_amended_witness :
    (solsOf (buildSolveCore zeroOracle ds_w10 a_w10) = .ok [singleEmptySol]) ∧
    ((¬(0 < a_w10.pool_solutions ∧ ([singleEmptySol] : List Sol).length < a_w10.pool_solutions) →
        solsOf (build_solve zeroOracle ds_w10 a_w10) = .ok [singleEmptySol]) ∧
     ((0 < a_w10.pool_solutions ∧ ([singleEmptySol] : List Sol).length < a_w10.pool_solutions) →
        solsOf (build_solve zeroOracle ds_w10 a_w10)
          = (enumerate_k_best zeroOracle ds_w10 a_w10 a_w10.pool_solutions
              (fallbackTPS a_w10)).map
              (fun E => if E = [] then [singleEmptySol] else E.take a_w10.pool_solutions))) :=
  ⟨by with_unfolding_all decide,
   C3_amended zeroOracle ds_w10 a_w10 _ (by with_unfolding_all decide)⟩

/-- A conformant solver that finds the (feasible) zero selection whenever the
pool parameters are configured, but is interrupted with no incumbent on
single-best re-solves — as a time-limited or user-interrupted run can be. -/
def oracleC3 : Oracle := fun M =>
  if 0 < M.poolSolutionsParam then listOracle [zeroAsg] M else noSolRes .interrupted

lemma oracleC3_conformsAll : ConformsAll oracleC3 := by
  intro M
  unfold oracleC3
  by_cases h : 0 < M.poolSolutionsParam
  · rw [if_pos h]
    apply listOracle_conformsAt
    intro g hg v
    simp only [List.mem_singleton] at hg
    subst hg
    exact Or.inl rfl
  · rw [if_neg h]
    exact noSolRes_conformsAt M .interrupted (by decide) (by decide)

def ds_c3 : Dataset :=
  { rows := [{ proj_id := "P1", cost := 1, benefit := 1, social_score := 0, region := "",
               res := fun _ => 0 }],
    hasSocial := false, hasRegion := false, resCols := [] }

def a_c3 : Args := { budget := 10, pool_solutions := 2 }

/-- Claim C3 counterexample: the native pool yields one distinct Solution
(fewer than the requested 2), so the fallback enumerator is invoked, but its
rounds find nothing and it returns an empty list — and the code then keeps
the native batch instead of replacing it with the (empty) enumerator output
truncated to 2 entries, contradicting "its output supersedes the native-pool
output entirely". -/
theorem C3_counterexample :
    ConformsAll oracleC3 ∧
    solsOf (buildSolveCore oracleC3 ds_c3 a_c3) = .ok [singleEmptySol] ∧
    (0 < a_c3.pool_solutions ∧ ([singleEmptySol] : List Sol).length < a_c3.pool_solutions) ∧
    enumerate_k_best oracleC3 ds_c3 a_c3 a_c3.pool_solutions (fallbackTPS a_c3) = .ok [] ∧
    solsOf (build_solve oracleC3 ds_c3 a_c3) = .ok [singleEmptySol] ∧
    ([singleEmptySol] : List Sol) ≠ ([] : List Sol).take a_c3.pool_solutions :=
  ⟨oracleC3_conformsAll, by with_unfolding_all decide, by decide,
   by with_unfolding_all decide, by with_unfolding_all decide, by decide⟩

/-- Claim C7 (amended): the pooled extractor iterates exactly the slots
`0 .. min(SolCount, pool)-1`; slot `s` yields a Solution numbered `s` whose
selected-id list is the 0.5-thresholding of the slot-`s` assignment when the
slot read succeeds (given exact name parsing) or when the per-variable `Xn`
read succeeds, and the 0.5-thresholding of the primary incumbent's values
when both slot reads fail; its objective is the slot's `PoolObjVal` when that
read succeeds and the primary `ObjVal` otherwise. -/
theorem C7_amended (M : Model) (r : SolveResult) (pool : ℕ)
    (hparse : ∀ p ∈ M.vars, parseVarName (varName p) = some p) :
    (extractPooled M r pool).length = min r.solCount pool ∧
    ∀ s, s < min r.solCount pool →
      ∃ so, (extractPooled M r pool)[s]? = some so ∧
        so.sol_no = s ∧
        (r.slotXOk s = true →
          so.selected = M.vars.filter (fun p => decide ((1 : ℚ)/2 < r.slotAssign s p))) ∧
        (r.slotXOk s = false → r.xnOk s = true →
          so.selected = M.vars.filter (fun p => decide ((1 : ℚ)/2 < r.slotAssign s p))) ∧
        (r.slotXOk s = false → r.xnOk s = false →
          so.selected = M.vars.filter (fun p => decide ((1 : ℚ)/2 < primaryVal r p))) ∧
        (∀ v, r.slotObjRead s = some v → so.obj = v) ∧
        (r.slotObjRead s = none → so.obj = r.objVal) := by
  constructor
  · unfold extractPooled
    rw [List.length_map, List.length_range]
  · intro s hs
    refine ⟨{ sol_no := s, selected := slotSelected M r s,
              obj := (r.slotObjRead s).getD r.objVal, iteration := none, excluded := [] },
            ?_, rfl, ?_, ?_, ?_, ?_, ?_⟩
    · unfold extractPooled
      rw [List.getElem?_map, List.getElem?_range]
      · rfl
      · exact hs
    · intro hx
      rw [slotSelected_xok M r s hparse hx]
      rfl
    · intro hx hxn
      rw [slotSelected_xnok M r s hx hxn]
      rfl
    · intro hx hxn
      show slotSelected M r s = _
      unfold slotSelected
      rw [if_neg (by simp [hx])]
      apply List.filter_congr
      intro p _
      simp [slotFallbackVal, hxn]
    · intro v hv
      show (r.slotObjRead s).getD r.objVal = v
      rw [hv]
      rfl
    · intro hv
      show (r.slotObjRead s).getD r.objVal = r.objVal
      rw [hv]
      rfl

def m_w7 : Model :=
  { vars := ["P1"], objCoeff := fun _ => 0, constrs := [], poolSearchMode := 2,
    poolSolutionsParam := 1, poolGapParam := none, timeLimitParam := none }

def r_w7 : SolveResult :=
  { status := .optimal, solCount := 1, objVal := 3, xRead := some oneAsg,
    slotAssign := fun _ => oneAsg, slotXOk := fun _ => true, xnOk := fun _ => true,
    slotObjRead := fun _ => some 3 }

theorem C7_amended_witness :
    (∀ p ∈ m_w7.vars, parseVarName (varName p) = some p) ∧
    ((extractPooled m_w7 r_w7 1).length = min r_w7.solCount 1 ∧
     ∀ s, s < min r_w7.solCount 1 →
       ∃ so, (extractPooled m_w7 r_w7 1)[s]? = some so ∧
         so.sol_no = s ∧
         (r_w7.slotXOk s = true →
           so.selected = m_w7.vars.filter (fun p => decide ((1 : ℚ)/2 < r_w7.slotAssign s p))) ∧
         (r_w7.slotXOk s = false → r_w7.xnOk s = true →
           so.selected = m_w7.vars.filter (fun p => decide ((1 : ℚ)/2 < r_w7.slotAssign s p))) ∧
         (r_w7.slotXOk s = false → r_w7.xnOk s = false →
           so.selected = m_w7.vars.filter (fun p => decide ((1 : ℚ)/2 < primaryVal r_w7 p))) ∧
         (∀ v, r_w7.slotObjRead s = some v → so.obj = v) ∧
         (r_w7.slotObjRead s = none → so.obj = r_w7.objVal)) :=
  ⟨by with_unfolding_all decide, C7_amended m_w7 r_w7 1 (by with_unfolding_all decide)⟩

def ds_c7 : Dataset :=
  { rows := [{ proj_id := "A", cost := 2, benefit := 3, social_score := 0, region := "",
               res := fun _ => 0 }],
    hasSocial := false, hasRegion := false, resCols := [] }

def a_c7 : Args := { budget := 7, pool_solutions := 1 }

/-- Claim C7 counterexample: the slot-0 assignment selects project `A`
(value 1 > 0.5), but the extractor's returned Solution selects nothing,
because `x[A]` contains no `P` and the name-parsing loop drops it — so the
slot's selected-id set is not "exactly the projects whose decision value
exceeds 0.5". -/
theorem C7_counterexample :
    ConformsAll (listOracle [oneAsg]) ∧
    solsOf (build_solve (listOracle [oneAsg]) ds_c7 a_c7)
      = .ok [{ sol_no := 0, selected := [], obj := 3, iteration := none, excluded := [] }] ∧
    (projectIds ds_c7).filter (fun p => decide ((1 : ℚ)/2 < oneAsg p)) = ["A"] ∧
    ([] : List String) ≠ ["A"] :=
  ⟨onesOracle_conformsAll, by with_unfolding_all decide, by with_unfolding_all decide,
   by decide⟩

lemma objOf_eq_sum_selected (M : Model) (f : String → ℚ) (hb : binaryOn M.vars f) :
    objOf M f = ((bestSelected M f).map M.objCoeff).sum := by
  unfold objOf bestSelected
  exact sum_mul_indicator f M.objCoeff M.vars hb

/-- Pool disabled: a successful core run yields nothing or exactly one
single-best Solution read from the incumbent. -/
lemma core_pool0_shape (oracle : Oracle) (ds : Dataset) (a : Args)
    (hp : a.pool_solutions = 0) :
    ∀ sols, solsOf (buildSolveCore oracle ds a) = .ok sols →
      sols = [] ∨ ∃ M f, buildModelE ds a = .ok M ∧ (oracle M).xRead = some f ∧
        sols = [{ sol_no := 0, selected := bestSelected M f, obj := (oracle M).objVal,
                  iteration := none, excluded := [] }] := by
  intro sols h
  obtain ⟨res, hres, hsols⟩ := (solsOf_ok_iff _ _).mp h
  obtain ⟨M, hM, _, _, _, hcases⟩ := buildSolveCore_ok_cases oracle ds a res hres
  rcases hcases with ⟨_, he⟩ | ⟨_, hpos, _, _⟩ | ⟨_, _, f, hread, heq⟩
  · left; rw [← hsols, he]
  · rw [hp] at hpos; exact absurd hpos (Nat.lt_irrefl 0)
  · right
    exact ⟨M, f, hM, hread, by rw [← hsols, heq, dedupSols_singleton]⟩

lemma core_objConsistent (oracle : Oracle) (ds : Dataset) (a : Args)
    (hconf : ConformsAll oracle)
    (hparse : ∀ p ∈ projectIds ds, parseVarName (varName p) = some p)
    (hslots : ∀ M, buildModelE ds a = .ok M →
      ∀ s, s < min (oracle M).solCount a.pool_solutions →
        (oracle M).slotXOk s = true ∧ (oracle M).slotObjRead s ≠ none) :
    ∀ sols, solsOf (buildSolveCore oracle ds a) = .ok sols →
      ∀ so ∈ sols, so.obj = (so.selected.map (benefit_used ds a.multi_crit_alpha)).sum := by
  intro sols hok so hso
  obtain ⟨res, hres, hsols⟩ := (solsOf_ok_iff _ _).mp hok
  obtain ⟨M, hM, _, _, _, hcases⟩ := buildSolveCore_ok_cases oracle ds a res hres
  have hobj := buildModelE_ok_obj hM
  have hparse' : ∀ p ∈ M.vars, parseVarName (varName p) = some p := by
    rw [buildModelE_ok_vars hM]; exact hparse
  rw [← hsols] at hso
  rcases hcases with ⟨_, he⟩ | ⟨_, _, _, heq⟩ | ⟨_, _, f, hread, heq⟩
  · rw [he] at hso; cases hso
  · rw [heq] at hso
    obtain ⟨s, hs, hform⟩ :=
      extractPooled_mem M (oracle M) a.pool_solutions so (dedupSols_subset _ _ hso)
    obtain ⟨hxok, hor⟩ := hslots M hM s hs
    have hs' : s < (oracle M).solCount := lt_of_lt_of_le hs (min_le_left _ _)
    obtain ⟨v, hv⟩ := Option.ne_none_iff_exists.mp hor
    have hv' : (oracle M).slotObjRead s = some v := hv.symm
    have hsel : so.selected = bestSelected M ((oracle M).slotAssign s) := by
      rw [hform]
      exact slotSelected_xok M (oracle M) s hparse' hxok
    have hobjv : so.obj = v := by rw [hform]; simp [hv']
    have hfeas := (hconf M).slot_good s hs'
    rw [hobjv, (hconf M).slotObj_good s v hs' hv',
      objOf_eq_sum_selected M _ hfeas.1, hsel, ← hobj]
  · rw [heq, dedupSols_singleton] at hso
    rw [List.mem_singleton.mp hso]
    obtain ⟨hfeas, hov⟩ := (hconf M).x_good f hread
    show (oracle M).objVal = ((bestSelected M f).map (benefit_used ds a.multi_crit_alpha)).sum
    rw [hov, objOf_eq_sum_selected M f hfeas.1, hobj]

lemma enumGo_objConsistent (oracle : Oracle) (ds : Dataset) (a : Args) (perSolve : Option ℚ)
    (hconf : ConformsAll oracle) :
    ∀ (fuel i : ℕ) (found : List Sol) (exc : List (List String)) (out : List Sol),
      enumGo oracle ds a perSolve fuel i found exc = .ok out →
      (∀ e ∈ found, e.obj = (e.selected.map (benefit_used ds a.multi_crit_alpha)).sum) →
      ∀ e ∈ out, e.obj = (e.selected.map (benefit_used ds a.multi_crit_alpha)).sum := by
  intro fuel
  induction fuel with
  | zero =>
    intro i found exc out h hfound
    injection h with h
    rw [← h]
    exact hfound
  | succ n ih =>
    intro i found exc out h hfound
    rw [show enumGo oracle ds a perSolve (n + 1) i found exc
        = match buildSolveCore oracle ds (roundArgs a perSolve exc) with
          | .error e => .error e
          | .ok res =>
            match res.solutions with
            | [] => .ok found
            | best :: _ =>
              let entry : Sol := { best with sol_no := i, iteration := some i, excluded := exc }
              if best.selected = [] then .ok (found ++ [entry])
              else enumGo oracle ds a perSolve n (i + 1) (found ++ [entry])
                (exc ++ [best.selected]) from rfl] at h
    cases hcore : buildSolveCore oracle ds (roundArgs a perSolve exc) with
    | error e => rw [hcore] at h; cases h
    | ok res =>
      rw [hcore] at h
      dsimp only at h
      have hbest : ∀ best ∈ res.solutions,
          best.obj = (best.selected.map (benefit_used ds a.multi_crit_alpha)).sum := by
        intro best hbest
        have hok : solsOf (buildSolveCore oracle ds (roundArgs a perSolve exc))
            = .ok res.solutions := by rw [hcore]; rfl
        rcases core_pool0_shape oracle ds (roundArgs a perSolve exc) rfl
          res.solutions hok with he | ⟨M, f, hM, hread, heq⟩
        · rw [he] at hbest; cases hbest
        · rw [heq] at hbest
          rw [List.mem_singleton.mp hbest]
          obtain ⟨hfeas, hov⟩ := (hconf M).x_good f hread
          show (oracle M).objVal = _
          rw [hov, objOf_eq_sum_selected M f hfeas.1,
            buildModelE_ok_obj hM]
          rfl
      cases hsols : res.solutions with
      | nil =>
        rw [hsols] at h
        injection h with h
        rw [← h]
        exact hfound
      | cons best rest =>
        rw [hsols] at h
        dsimp only at h
        have hb : best.obj = (best.selected.map (benefit_used ds a.multi_crit_alpha)).sum :=
          hbest best (by rw [hsols]; exact List.mem_cons_self _ _)
        have hfound' : ∀ e ∈ found ++
            [{ best with sol_no := i, iteration := some i, excluded := exc }],
            e.obj = (e.selected.map (benefit_used ds a.multi_crit_alpha)).sum := by
          intro e he
          rcases List.mem_append.mp he with he | he
          · exact hfound e he
          · rw [List.mem_singleton.mp he]
            exact hb
        by_cases hsel : best.selected = []
        · rw [if_pos hsel] at h
          injection h with h
          rw [← h]
          exact hfound'
        · rw [if_neg hsel] at h
          exact ih (i + 1) _ _ out h hfound'

lemma enumerate_objConsistent (oracle : Oracle) (ds : Dataset) (a : Args) (k : ℕ)
    (tps : Option ℚ) (hconf : ConformsAll oracle) :
    ∀ E, enumerate_k_best oracle ds a k tps = .ok E →
      ∀ e ∈ E, e.obj = (e.selected.map (benefit_used ds a.multi_crit_alpha)).sum := by
  intro E h
  exact enumGo_objConsistent oracle ds a _ hconf k 0 [] [] E h (by intro e he; cases he)

/-- With the pool disabled every Solution of a successful core run comes from
the incumbent read, so its objective matches the coefficient sum over its
selection with no assumption on name parsing (the single-best path never
parses variable names). -/
lemma core_pool0_objConsistent (oracle : Oracle) (ds : Dataset) (a : Args)
    (hconf : ConformsAll oracle) (hp : a.pool_solutions = 0) :
    ∀ sols, solsOf (buildSolveCore oracle ds a) = .ok sols →
      ∀ so ∈ sols, so.obj = (so.selected.map (benefit_used ds a.multi_crit_alpha)).sum := by
  intro sols hok so hso
  rcases core_pool0_shape oracle ds a hp sols hok with he | ⟨M, f, hM, hread, heq⟩
  · rw [he] at hso; cases hso
  · rw [heq] at hso
    rw [List.mem_singleton.mp hso]
    obtain ⟨hfeas, hov⟩ := (hconf M).x_good f hread
    show (oracle M).objVal = _
    rw [hov, objOf_eq_sum_selected M f hfeas.1, buildModelE_ok_obj hM]

/-- Claim C6 (amended): under the solver contract, every Solution's
`objective_value` equals the sum of the blended benefit coefficients
(`benefit_used`) over its `selected_ids` — unconditionally for single-best
solves (`pool_solutions = 0`) and for fallback-enumeration output, whose
reads never parse variable names; and for pooled `build_solve` output
provided each extracted slot's value read and objective read succeed and
variable-name parsing recovers each project id exactly. -/
theorem C6_amended (oracle : Oracle) (ds : Dataset) (a : Args)
    (hconf : ConformsAll oracle) :
    (a.pool_solutions = 0 →
      ∀ sols, solsOf (build_solve oracle ds a) = .ok sols →
        ∀ so ∈ sols,
          so.obj = (so.selected.map (benefit_used ds a.multi_crit_alpha)).sum) ∧
    (∀ (k : ℕ) (tps : Option ℚ) (E : List Sol),
      enumerate_k_best oracle ds a k tps = .ok E →
        ∀ e ∈ E, e.obj = (e.selected.map (benefit_used ds a.multi_crit_alpha)).sum) ∧
    ((∀ p ∈ projectIds ds, parseVarName (varName p) = some p) →
     (∀ M, buildModelE ds a = .ok M →
        ∀ s, s < min (oracle M).solCount a.pool_solutions →
          (oracle M).slotXOk s = true ∧ (oracle M).slotObjRead s ≠ none) →
      ∀ sols, solsOf (build_solve oracle ds a) = .ok sols →
        ∀ so ∈ sols,
          so.obj = (so.selected.map (benefit_used ds a.multi_crit_alpha)).sum) := by
  refine ⟨?_, ?_, ?_⟩
  · intro hp sols h so hso
    rw [build_solve_pool_zero oracle ds a hp] at h
    exact core_pool0_objConsistent oracle ds a hconf hp sols h so hso
  · intro k tps E hE e he
    exact enumerate_objConsistent oracle ds a k tps hconf E hE e he
  intro hparse hslots sols h so hso
  unfold build_solve at h
  cases hcore : buildSolveCore oracle ds a with
  | error e => rw [hcore] at h; simp [solsOf, Except.map] at h
  | ok res =>
    rw [hcore] at h
    dsimp only at h
    have hcoreSols : solsOf (buildSolveCore oracle ds a) = .ok res.solutions := by
      rw [hcore]; rfl
    by_cases hf : 0 < a.pool_solutions ∧ res.solutions.length < a.pool_solutions
    · rw [if_pos hf] at h
      cases henum : enumerate_k_best oracle ds a a.pool_solutions (fallbackTPS a) with
      | error e => rw [henum] at h; simp [solsOf, Except.map] at h
      | ok E =>
        rw [henum] at h
        dsimp only at h
        by_cases hE : E = []
        · rw [if_pos hE] at h
          simp only [solsOf, Except.map, Except.ok.injEq] at h
          rw [← h] at hso
          exact core_objConsistent oracle ds a hconf hparse hslots res.solutions
            hcoreSols so hso
        · rw [if_neg hE] at h
          simp only [solsOf, Except.map, Except.ok.injEq] at h
          rw [← h] at hso
          exact enumerate_objConsistent oracle ds a a.pool_solutions (fallbackTPS a) hconf E
            henum so (List.mem_of_mem_take hso)
    · rw [if_neg hf] at h
      simp only [solsOf, Except.map, Except.ok.injEq] at h
      rw [← h] at hso
      exact core_objConsistent oracle ds a hconf hparse hslots res.solutions hcoreSols so hso

theorem C6_amended_witness :
    (a_w10.pool_solutions = 0 ∧
     solsOf (build_solve zeroOracle ds_w10 a_w10) = .ok [singleEmptySol]) ∧
    (∀ so ∈ ([singleEmptySol] : List Sol),
      so.obj = (so.selected.map (benefit_used ds_w10 a_w10.multi_crit_alpha)).sum) :=
  ⟨⟨rfl, by with_unfolding_all decide⟩,
   (C6_amended zeroOracle ds_w10 a_w10 zeroOracle_conformsAll).1 rfl
     _ (by with_unfolding_all decide)⟩

def ds_c6 : Dataset :=
  { rows := [{ proj_id := "A", cost := 1, benefit := 5, social_score := 0, region := "",
               res := fun _ => 0 }],
    hasSocial := false, hasRegion := false, resCols := [] }

def a_c6 : Args := { budget := 10, pool_solutions := 1 }

/-- Claim C6 counterexample: the pool slot selects project `A` (objective 5),
but the name-parsing extraction drops it from `selected_ids`, so the returned
Solution has objective 5 while the sum of blended coefficients over its
(empty) selected-id set is 0. -/
theorem C6_counterexample :
    ConformsAll (listOracle [oneAsg]) ∧
    solsOf (build_solve (listOracle [oneAsg]) ds_c6 a_c6)
      = .ok [{ sol_no := 0, selected := [], obj := 5, iteration := none, excluded := [] }] ∧
    (([] : List String).map (benefit_used ds_c6 a_c6.multi_crit_alpha)).sum = 0 ∧
    (5 : ℚ) ≠ 0 :=
  ⟨onesOracle_conformsAll, by with_unfolding_all decide, rfl, by decide⟩

lemma insort_perm (s : String) (l : List String) : List.Perm (insortStr s l) (s :: l) := by
  induction l with
  | nil => exact List.Perm.refl _
  | cons h t ih =>
    unfold insortStr
    by_cases hc : s ≤ h
    · rw [if_pos hc]
    · rw [if_neg hc]
      exact (List.Perm.cons h ih).trans (List.Perm.swap s h t)

lemma sortStrs_perm (l : List String) : List.Perm (sortStrs l) l := by
  induction l with
  | nil => exact List.Perm.refl _
  | cons x t ih =>
    show List.Perm (insortStr x (sortStrs t)) (x :: t)
    exact (insort_perm x (sortStrs t)).trans (List.Perm.cons x ih)

lemma insort_sorted (s : String) (l : List String) (h : l.Sorted (· ≤ ·)) :
    (insortStr s l).Sorted (· ≤ ·) := by
  induction l with
  | nil => simp [insortStr]
  | cons x t ih =>
    unfold insortStr
    obtain ⟨hx, ht⟩ := List.sorted_cons.mp h
    by_cases hc : s ≤ x
    · rw [if_pos hc]
      refine List.sorted_cons.mpr ⟨?_, h⟩
      intro b hb
      rcases List.mem_cons.mp hb with hb | hb
      · rw [hb]; exact hc
      · exact le_trans hc (hx b hb)
    · rw [if_neg hc]
      refine List.sorted_cons.mpr ⟨?_, ih ht⟩
      intro b hb
      have := (insort_perm s t).mem_iff.mp hb
      rcases List.mem_cons.mp this with hb' | hb'
      · rw [hb']; exact le_of_not_le hc
      · exact hx b hb'

lemma sortStrs_sorted (l : List String) : (sortStrs l).Sorted (· ≤ ·) := by
  induction l with
  | nil => simp [sortStrs]
  | cons x t ih => exact insort_sorted x (sortStrs t) ih

lemma perm_sortStrs_eq {l₁ l₂ : List String} (h : List.Perm l₁ l₂) : sortStrs l₁ = sortStrs l₂ :=
  List.eq_of_perm_of_sorted ((sortStrs_perm l₁).trans (h.trans (sortStrs_perm l₂).symm))
    (sortStrs_sorted _) (sortStrs_sorted _)

lemma sortStrs_ne_nil {S : List String} (h : S ≠ []) : sortStrs S ≠ [] := by
  intro hc
  apply h
  have hlen : (sortStrs S).length = S.length := (sortStrs_perm S).length_eq
  rw [hc] at hlen
  exact List.length_eq_zero.mp hlen.symm

lemma excludeCon_mem (ds : Dataset) (a : Args) (S : List String)
    (hS : S ∈ a.exclude_sets) (hne : S ≠ [])
    (hsub : ∀ p ∈ S, p ∈ projectIds ds) (M : Model) (hM : buildModelE ds a = .ok M) :
    exclusionCon S ∈ M.constrs := by
  rw [buildModelE_ok_constrs hM]
  have hfilter : S.filter (fun p => decide (p ∈ projectIds ds)) = S := by
    apply List.filter_eq_self.mpr
    intro p hp
    exact decide_eq_true (hsub p hp)
  have hx : exclusionCon S ∈ excludeCons ds a := by
    apply List.mem_filterMap.mpr
    refine ⟨S, hS, ?_⟩
    show (if S.filter (fun p => decide (p ∈ projectIds ds)) = [] then none
          else some ⟨(S.filter (fun p => decide (p ∈ projectIds ds))).map (fun p => (p, 1)),
            .le, ((S.filter (fun p => decide (p ∈ projectIds ds))).length : ℚ) - 1⟩)
        = some (exclusionCon S)
    rw [hfilter, if_neg hne]
    rfl
  simp [List.mem_append, hx]

lemma exclusion_blocks (S : List String) (f : String → ℚ) (hne : S ≠ [])
    (hall : ∀ p ∈ S, f p = 1) : ¬ satCon f (exclusionCon S) := by
  intro hs
  have hs' : ((S.map (fun p => (p, (1 : ℚ)))).map (fun t => t.2 * f t.1)).sum
      ≤ (S.length : ℚ) - 1 := hs
  have hsum : ((S.map (fun p => (p, (1 : ℚ)))).map (fun t => t.2 * f t.1)).sum
      = (S.length : ℚ) := by
    rw [List.map_map]
    have h1 : S.map ((fun t : String × ℚ => t.2 * f t.1) ∘ fun p => (p, (1 : ℚ)))
        = S.map (fun _ => (1 : ℚ)) := by
      apply List.map_congr_left
      intro p hp
      show 1 * f p = 1
      rw [hall p hp, mul_one]
    rw [h1, sum_map_one]
  rw [hsum] at hs'
  have hpos : 0 < S.length := List.length_pos.mpr hne
  have hposq : (0 : ℚ) < (S.length : ℚ) := by exact_mod_cast hpos
  linarith

/-- A single-best re-solve under accumulated exclusion sets cannot reproduce
any excluded selection (as a canonical sorted key). -/
lemma roundSel_avoids (oracle : Oracle) (ds : Dataset) (a : Args) (perSolve : Option ℚ)
    (exc : List (List String)) (hconf : ConformsAll oracle)
    (hexc : ∀ S ∈ exc, S ≠ [] ∧ (∀ p ∈ S, p ∈ projectIds ds)) :
    ∀ M f, buildModelE ds (roundArgs a perSolve exc) = .ok M →
      (oracle M).xRead = some f →
      ∀ S ∈ exc, sortStrs (bestSelected M f) ≠ sortStrs S := by
  intro M f hM hread S hS heq
  obtain ⟨hne, hsub⟩ := hexc S hS
  have hfeas := ((hconf M).x_good f hread).1
  have hmem : exclusionCon S ∈ M.constrs :=
    excludeCon_mem ds (roundArgs a perSolve exc) S hS hne hsub M hM
  have hperm : List.Perm (bestSelected M f) S :=
    ((sortStrs_perm (bestSelected M f)).symm.trans (heq ▸ sortStrs_perm S))
  have hall : ∀ p ∈ S, f p = 1 := by
    intro p hp
    have hpb : p ∈ bestSelected M f := hperm.mem_iff.mpr hp
    obtain ⟨hpv, hpf⟩ := List.mem_filter.mp hpb
    exact (half_lt_iff (hfeas.1 p hpv)).mp (by simpa using hpf)
  exact exclusion_blocks S f hne hall (hfeas.2 _ hmem)

lemma enumGo_keysNodup (oracle : Oracle) (ds : Dataset) (a : Args) (perSolve : Option ℚ)
    (hconf : ConformsAll oracle) :
    ∀ (fuel i : ℕ) (found : List Sol) (exc : List (List String)) (out : List Sol),
      enumGo oracle ds a perSolve fuel i found exc = .ok out →
      found.map (·.selected) = exc →
      (∀ S ∈ exc, S ≠ [] ∧ (∀ p ∈ S, p ∈ projectIds ds)) →
      (exc.map sortStrs).Nodup →
      (out.map sortKey).Nodup := by
  intro fuel
  induction fuel with
  | zero =>
    intro i found exc out h hfe hexc hnd
    injection h with h
    rw [← h]
    have : found.map sortKey = (found.map (·.selected)).map sortStrs := by
      rw [List.map_map]; rfl
    rw [this, hfe]
    exact hnd
  | succ n ih =>
    intro i found exc out h hfe hexc hnd
    rw [show enumGo oracle ds a perSolve (n + 1) i found exc
        = match buildSolveCore oracle ds (roundArgs a perSolve exc) with
          | .error e => .error e
          | .ok res =>
            match res.solutions with
            | [] => .ok found
            | best :: _ =>
              let entry : Sol := { best with sol_no := i, iteration := some i, excluded := exc }
              if best.selected = [] then .ok (found ++ [entry])
              else enumGo oracle ds a perSolve n (i + 1) (found ++ [entry])
                (exc ++ [best.selected]) from rfl] at h
    have hfk : found.map sortKey = exc.map sortStrs := by
      have : found.map sortKey = (found.map (·.selected)).map sortStrs := by
        rw [List.map_map]; rfl
      rw [this, hfe]
    cases hcore : buildSolveCore oracle ds (roundArgs a perSolve exc) with
    | error e => rw [hcore] at h; cases h
    | ok res =>
      rw [hcore] at h
      dsimp only at h
      have hok : solsOf (buildSolveCore oracle ds (roundArgs a perSolve exc))
          = .ok res.solutions := by rw [hcore]; rfl
      rcases core_pool0_shape oracle ds (roundArgs a perSolve exc) rfl res.solutions hok with
        he | ⟨M, f, hM, hread, heq⟩
      · rw [he] at h
        injection h with h
        rw [← h, hfk]
        exact hnd
      · rw [heq] at h
        dsimp only at h
        have havoid := roundSel_avoids oracle ds a perSolve exc hconf hexc M f hM hread
        have hnewkey : sortStrs (bestSelected M f) ∉ exc.map sortStrs := by
          intro hc
          obtain ⟨S, hS, hkey⟩ := List.mem_map.mp hc
          exact havoid S hS hkey.symm
        by_cases hsel : bestSelected M f = []
        · rw [if_pos hsel] at h
          injection h with h
          rw [← h]
          rw [List.map_append, hfk]
          apply (List.nodup_append).mpr
          refine ⟨hnd, List.nodup_singleton _, ?_⟩
          intro k hk
          simp only [List.map_cons, List.map_nil, List.mem_singleton]
          intro hkeq
          obtain ⟨S, hS, hkeyS⟩ := List.mem_map.mp hk
          have hknil : k = [] := by
            have h1 : k = sortStrs (bestSelected M f) := hkeq
            rw [h1, hsel]
            rfl
          exact sortStrs_ne_nil (hexc S hS).1 (by rw [hkeyS]; exact hknil)
        · rw [if_neg hsel] at h
          apply ih (i + 1) _ _ out h
          · rw [List.map_append, hfe]
            rfl
          · intro S hS
            rcases List.mem_append.mp hS with hS | hS
            · exact hexc S hS
            · rw [List.mem_singleton.mp hS]
              refine ⟨hsel, ?_⟩
              intro p hp
              have := List.mem_filter.mp hp
              rw [← buildModelE_ok_vars hM]
              exact this.1
          · rw [List.map_append]
            apply (List.nodup_append).mpr
            refine ⟨hnd, List.nodup_singleton _, ?_⟩
            intro k hk
            simp only [List.map_cons, List.map_nil, List.mem_singleton]
            intro hkeq
            rw [hkeq] at hk
            exact hnewkey hk

/-- Every successful `build_solve` batch is either the native core batch or a
truncation of a successful fallback enumeration. -/
lemma build_solve_sols_from (oracle : Oracle) (ds : Dataset) (a : Args) :
    ∀ sols, solsOf (build_solve oracle ds a) = .ok sols →
      solsOf (buildSolveCore oracle ds a) = .ok sols ∨
      ∃ E, enumerate_k_best oracle ds a a.pool_solutions (fallbackTPS a) = .ok E ∧
        sols = E.take a.pool_solutions := by
  intro sols h
  unfold build_solve at h
  cases hcore : buildSolveCore oracle ds a with
  | error e => rw [hcore] at h; simp [solsOf, Except.map] at h
  | ok res =>
    rw [hcore] at h
    dsimp only at h
    by_cases hf : 0 < a.pool_solutions ∧ res.solutions.length < a.pool_solutions
    · rw [if_pos hf] at h
      cases henum : enumerate_k_best oracle ds a a.pool_solutions (fallbackTPS a) with
      | error e => rw [henum] at h; simp [solsOf, Except.map] at h
      | ok E =>
        rw [henum] at h
        dsimp only at h
        by_cases hE : E = []
        · rw [if_pos hE] at h
          left
          exact h
        · rw [if_neg hE] at h
          right
          simp only [solsOf, Except.map, Except.ok.injEq] at h
          exact ⟨E, rfl, h.symm⟩
    · rw [if_neg hf] at h
      left
      exact h

lemma core_keysNodup (oracle : Oracle) (ds : Dataset) (a : Args) :
    ∀ res, buildSolveCore oracle ds a = .ok res → ((res.solutions).map sortKey).Nodup := by
  intro res h
  obtain ⟨M, _, _, _, _, hcases⟩ := buildSolveCore_ok_cases oracle ds a res h
  rcases hcases with ⟨_, he⟩ | ⟨_, _, _, heq⟩ | ⟨_, _, f, _, heq⟩
  · rw [he]; exact List.nodup_nil
  · rw [heq]; exact dedupSols_keys_nodup _
  · rw [heq]; exact dedupSols_keys_nodup _

lemma enumerate_keysNodup (oracle : Oracle) (ds : Dataset) (a : Args) (k : ℕ) (tps : Option ℚ)
    (hconf : ConformsAll oracle) :
    ∀ E, enumerate_k_best oracle ds a k tps = .ok E → (E.map sortKey).Nodup := by
  intro E h
  exact enumGo_keysNodup oracle ds a _ hconf k 0 [] [] E h rfl
    (by intro S hS; cases hS) List.nodup_nil

lemma core_selShape (oracle : Oracle) (ds : Dataset) (a : Args)
    (hconf : ConformsAll oracle)
    (hparse : ∀ p ∈ projectIds ds, parseVarName (varName p) = some p) :
    ∀ sols, solsOf (buildSolveCore oracle ds a) = .ok sols →
      ∀ so ∈ sols, ∃ g : String → ℚ, so.selected
        = (projectIds ds).filter (fun p => decide ((1 : ℚ)/2 < g p)) := by
  intro sols hok so hso
  obtain ⟨res, hres, hsols⟩ := (solsOf_ok_iff _ _).mp hok
  obtain ⟨M, hM, _, _, _, hcases⟩ := buildSolveCore_ok_cases oracle ds a res hres
  have hv := buildModelE_ok_vars hM
  have hparse' : ∀ p ∈ M.vars, parseVarName (varName p) = some p := by
    rw [hv]; exact hparse
  rw [← hsols] at hso
  rcases hcases with ⟨_, he⟩ | ⟨_, _, _, heq⟩ | ⟨_, _, f, hread, heq⟩
  · rw [he] at hso; cases hso
  · rw [heq] at hso
    obtain ⟨s, hs, hform⟩ :=
      extractPooled_mem M (oracle M) a.pool_solutions so (dedupSols_subset _ _ hso)
    obtain ⟨g, _, hsel⟩ := slotSelected_feasible_form M (oracle M) s (hconf M)
      (lt_of_lt_of_le hs (min_le_left _ _)) hparse'
    refine ⟨g, ?_⟩
    rw [hform]
    show slotSelected M (oracle M) s = _
    rw [hsel]
    show M.vars.filter _ = _
    rw [hv]
  · rw [heq, dedupSols_singleton] at hso
    rw [List.mem_singleton.mp hso]
    refine ⟨f, ?_⟩
    show bestSelected M f = _
    show M.vars.filter _ = _
    rw [hv]

lemma enumGo_selShape (oracle : Oracle) (ds : Dataset) (a : Args) (perSolve : Option ℚ)
    (hconf : ConformsAll oracle)
    (hparse : ∀ p ∈ projectIds ds, parseVarName (varName p) = some p) :
    ∀ (fuel i : ℕ) (found : List Sol) (exc : List (List String)) (out : List Sol),
      enumGo oracle ds a perSolve fuel i found exc = .ok out →
      (∀ e ∈ found, ∃ g : String → ℚ, e.selected
        = (projectIds ds).filter (fun p => decide ((1 : ℚ)/2 < g p))) →
      ∀ e ∈ out, ∃ g : String → ℚ, e.selected
        = (projectIds ds).filter (fun p => decide ((1 : ℚ)/2 < g p)) := by
  intro fuel
  induction fuel with
  | zero =>
    intro i found exc out h hfound
    injection h with h
    rw [← h]
    exact hfound
  | succ n ih =>
    intro i found exc out h hfound
    rw [show enumGo oracle ds a perSolve (n + 1) i found exc
        = match buildSolveCore oracle ds (roundArgs a perSolve exc) with
          | .error e => .error e
          | .ok res =>
            match res.solutions with
            | [] => .ok found
            | best :: _ =>
              let entry : Sol := { best with sol_no := i, iteration := some i, excluded := exc }
              if best.selected = [] then .ok (found ++ [entry])
              else enumGo oracle ds a perSolve n (i + 1) (found ++ [entry])
                (exc ++ [best.selected]) from rfl] at h
    cases hcore : buildSolveCore oracle ds (roundArgs a perSolve exc) with
    | error e => rw [hcore] at h; cases h
    | ok res =>
      rw [hcore] at h
      dsimp only at h
      have hbest : ∀ best ∈ res.solutions, ∃ g : String → ℚ, best.selected
          = (projectIds ds).filter (fun p => decide ((1 : ℚ)/2 < g p)) := by
        intro best hb
        have hok : solsOf (buildSolveCore oracle ds (roundArgs a perSolve exc))
            = .ok res.solutions := by rw [hcore]; rfl
        exact core_selShape oracle ds (roundArgs a perSolve exc) hconf hparse
          res.solutions hok best hb
      cases hsols : res.solutions with
      | nil =>
        rw [hsols] at h
        injection h with h
        rw [← h]
        exact hfound
      | cons best rest =>
        rw [hsols] at h
        dsimp only at h
        have hb : ∃ g : String → ℚ, best.selected
            = (projectIds ds).filter (fun p => decide ((1 : ℚ)/2 < g p)) :=
          hbest best (by rw [hsols]; exact List.mem_cons_self _ _)
        have hfound' : ∀ e ∈ found ++
            [{ best with sol_no := i, iteration := some i, excluded := exc }],
            ∃ g : String → ℚ, e.selected = (projectIds ds).filter (fun p => decide ((1 : ℚ)/2 < g p)) := by
          intro e he
          rcases List.mem_append.mp he with he | he
          · exact hfound e he
          · rw [List.mem_singleton.mp he]
            exact hb
        by_cases hsel : best.selected = []
        · rw [if_pos hsel] at h
          injection h with h
          rw [← h]
          exact hfound'
        · rw [if_neg hsel] at h
          exact ih (i + 1) _ _ out h hfound'

lemma enumerate_selShape (oracle : Oracle) (ds : Dataset) (a : Args) (k : ℕ) (tps : Option ℚ)
    (hconf : ConformsAll oracle)
    (hparse : ∀ p ∈ projectIds ds, parseVarName (varName p) = some p) :
    ∀ E, enumerate_k_best oracle ds a k tps = .ok E →
      ∀ e ∈ E, ∃ g : String → ℚ, e.selected
        = (projectIds ds).filter (fun p => decide ((1 : ℚ)/2 < g p)) := by
  intro E h
  exact enumGo_selShape oracle ds a _ hconf hparse k 0 [] [] E h (by intro e he; cases he)

lemma build_solve_selShape (oracle : Oracle) (ds : Dataset) (a : Args)
    (hconf : ConformsAll oracle)
    (hparse : ∀ p ∈ projectIds ds, parseVarName (varName p) = some p) :
    ∀ sols, solsOf (build_solve oracle ds a) = .ok sols →
      ∀ so ∈ sols, ∃ g : String → ℚ, so.selected
        = (projectIds ds).filter (fun p => decide ((1 : ℚ)/2 < g p)) := by
  intro sols h so hso
  rcases build_solve_sols_from oracle ds a sols h with hnat | ⟨E, hE, htake⟩
  · exact core_selShape oracle ds a hconf hparse sols hnat so hso
  · rw [htake] at hso
    exact enumerate_selShape oracle ds a a.pool_solutions (fallbackTPS a) hconf hparse
      E hE so (List.mem_of_mem_take hso)

/-- Claim C2 (amended): in every `build_solve` batch, no two Solutions share
the same canonical sorted selected-id sequence (the code's dedup key, which
compares with multiplicity); when variable-name parsing recovers the project
ids exactly, every selected list is duplicate-free and no two distinct
Solutions share the same selected-id set.  The dedup pass itself keeps the
first occurrence of each key in order and discards exactly the later
repeats. -/
theorem C2_amended (oracle : Oracle) (ds : Dataset) (a : Args)
    (hids : (projectIds ds).Nodup) (hconf : ConformsAll oracle) :
    (∀ sols, solsOf (build_solve oracle ds a) = .ok sols →
      (sols.map sortKey).Nodup ∧
      ((∀ p ∈ projectIds ds, parseVarName (varName p) = some p) →
        (∀ so ∈ sols, so.selected.Nodup) ∧
        ∀ so1 ∈ sols, ∀ so2 ∈ sols,
          so1.selected.toFinset = so2.selected.toFinset → so1 = so2)) ∧
    (∀ l : List Sol, (dedupSols l).Sublist l ∧
      (∀ x ∈ l, sortKey x ∈ (dedupSols l).map sortKey) ∧
      ∀ l₁ x l₂, l = l₁ ++ x :: l₂ → (∀ y ∈ l₁, sortKey y ≠ sortKey x) →
        x ∈ dedupSols l) := by
  constructor
  · intro sols h
    have hkeys : (sols.map sortKey).Nodup := by
      rcases build_solve_sols_from oracle ds a sols h with hnat | ⟨E, hE, htake⟩
      · obtain ⟨res, hres, hsols⟩ := (solsOf_ok_iff _ _).mp hnat
        rw [← hsols]
        exact core_keysNodup oracle ds a res hres
      · rw [htake, List.map_take]
        exact List.Nodup.sublist (List.take_sublist _ _)
          (enumerate_keysNodup oracle ds a a.pool_solutions (fallbackTPS a) hconf E hE)
    refine ⟨hkeys, ?_⟩
    intro hparse
    have hnod : ∀ so ∈ sols, so.selected.Nodup := by
      intro so hso
      obtain ⟨g, hg⟩ := build_solve_selShape oracle ds a hconf hparse sols h so hso
      rw [hg]
      exact List.Nodup.filter _ hids
    refine ⟨hnod, ?_⟩
    intro so1 h1 so2 h2 hfin
    have hperm : List.Perm so1.selected so2.selected := by
      apply (List.perm_ext_iff_of_nodup (hnod so1 h1) (hnod so2 h2)).mpr
      intro p
      constructor
      · intro hp
        have hm : p ∈ so1.selected.toFinset := List.mem_toFinset.mpr hp
        rw [hfin] at hm
        exact List.mem_toFinset.mp hm
      · intro hp
        have hm : p ∈ so2.selected.toFinset := List.mem_toFinset.mpr hp
        rw [← hfin] at hm
        exact List.mem_toFinset.mp hm
    exact List.inj_on_of_nodup_map hkeys h1 h2 (perm_sortStrs_eq hperm)
  · intro l
    refine ⟨dedupGo_sublist [] l, ?_, ?_⟩
    · intro x hx
      rcases dedupGo_complete [] l x hx with hc | hc
      · cases hc
      · exact hc
    · intro l₁ x l₂ hl hne
      rw [hl]
      exact dedupGo_first_kept x l₂ l₁ [] hne (List.not_mem_nil _)

theorem C2_amended_witness :
    ((projectIds ds_w10).Nodup ∧
      solsOf (build_solve zeroOracle ds_w10 a_w10) = .ok [singleEmptySol]) ∧
    (([singleEmptySol].map sortKey).Nodup ∧
      ((∀ p ∈ projectIds ds_w10, parseVarName (varName p) = some p) →
        (∀ so ∈ ([singleEmptySol] : List Sol), so.selected.Nodup) ∧
        ∀ so1 ∈ ([singleEmptySol] : List Sol), ∀ so2 ∈ ([singleEmptySol] : List Sol),
          so1.selected.toFinset = so2.selected.toFinset → so1 = so2)) :=
  ⟨⟨by decide, by with_unfolding_all decide⟩,
   (C2_amended zeroOracle ds_w10 a_w10 (by decide) zeroOracle_conformsAll).1 _
     (by with_unfolding_all decide)⟩

def gP1 : String → ℚ := fun p => if p = "P1" then 1 else 0

lemma twoOracle_conformsAll : ConformsAll (listOracle [oneAsg, gP1]) := by
  apply listOracle_conformsAll
  intro g hg v
  rcases List.mem_cons.mp hg with h | h
  · subst h; exact Or.inr rfl
  · simp only [List.mem_singleton] at h
    subst h
    by_cases hv : v = "P1"
    · right; simp [gP1, hv]
    · left; simp [gP1, hv]

def ds_c2 : Dataset :=
  { rows := [
      { proj_id := "P1", cost := 1, benefit := 1, social_score := 0, region := "",
        res := fun _ => 0 },
      { proj_id := "XP1", cost := 1, benefit := 1, social_score := 0, region := "",
        res := fun _ => 0 }],
    hasSocial := false, hasRegion := false, resCols := [] }

def a_c2 : Args := { budget := 10, pool_solutions := 2 }

/-- Claim C2 counterexample: the variable names of projects `P1` and `XP1`
both parse to the id `P1`, so pool slot 0 (both selected) yields the selected
list `["P1", "P1"]` while slot 1 (only `P1` selected) yields `["P1"]`.  Their
canonical sorted keys differ (the dedup compares with multiplicity), so both
survive deduplication — two Solutions of one batch with the same selected-id
set. -/
theorem C2_counterexample :
    ConformsAll (listOracle [oneAsg, gP1]) ∧
    solsOf (build_solve (listOracle [oneAsg, gP1]) ds_c2 a_c2)
      = .ok [{ sol_no := 0, selected := ["P1", "P1"], obj := 2, iteration := none,
               excluded := [] },
             { sol_no := 1, selected := ["P1"], obj := 1, iteration := none,
               excluded := [] }] ∧
    (["P1", "P1"] : List String).toFinset = (["P1"] : List String).toFinset ∧
    ({ sol_no := 0, selected := ["P1", "P1"], obj := 2, iteration := none,
       excluded := [] } : Sol)
      ≠ { sol_no := 1, selected := ["P1"], obj := 1, iteration := none, excluded := [] } :=
  ⟨twoOracle_conformsAll, by with_unfolding_all decide, by with_unfolding_all decide,
   by decide⟩

end CapBudget
